import Mathlib

/-!
# Verification of the TRAB case-repository ingestion and search core

A shallow embedding, in Lean 4, of the algorithmic core of the
`trab-case-repository-backend` service: text cleaning and word counting
(`OcrService.cleanText`), text chunking for embeddings
(`EmbeddingsService.chunkText`), single and batch embedding generation
(`EmbeddingsService.generateEmbedding` / `generateEmbeddingsBatch`),
per-page PDF extraction and the document status state machine
(`OcrService.extractTextFromPdf` / `processDocument`), snippet extraction
(`SearchService.truncateContent`), full-text / semantic / hybrid search
(`SearchService`), and the in-memory job queue (`SimpleQueueService`).

Strings are modelled as `List Char`; numeric scores as `ℚ`; the external
PDF parser, the Tesseract OCR engine, the embedding model and the two
PostgreSQL ranking primitives (`ts_rank` / `plainto_tsquery` matching and
the `<=>` vector-distance operator) are opaque parameters, as the service
treats them.
-/

namespace Trab

/-- The ECMAScript `\s` character class (WhiteSpace ∪ LineTerminator),
which is also the set trimmed by `String.prototype.trim`. -/
def jsWhitespace (c : Char) : Bool :=
  c.val = 0x20 || c.val = 0x09 || c.val = 0x0a || c.val = 0x0b ||
  c.val = 0x0c || c.val = 0x0d || c.val = 0xa0 || c.val = 0x1680 ||
  (0x2000 ≤ c.val && c.val ≤ 0x200a) ||
  c.val = 0x2028 || c.val = 0x2029 || c.val = 0x202f || c.val = 0x205f ||
  c.val = 0x3000 || c.val = 0xfeff

/-- `text.replace(/\s+/g, ' ')`: each maximal whitespace run becomes a
single space.  `prevWs` records whether the previous character belonged
to a whitespace run already emitted. -/
def collapseWsAux (prevWs : Bool) : List Char → List Char
  | [] => []
  | c :: cs =>
    if jsWhitespace c then
      if prevWs then collapseWsAux true cs
      else ' ' :: collapseWsAux true cs
    else c :: collapseWsAux false cs

def collapseWs (s : List Char) : List Char := collapseWsAux false s

/-- The character class kept by `replace(/[^\x20-\x7E\n]/g, '')`. -/
def printableKeep (c : Char) : Bool :=
  (0x20 ≤ c.val && c.val ≤ 0x7e) || c = '\n'

/-- Cap each maximal run of the character `c` at `k` occurrences.
With `k = 3` and `c = '.'` this is `replace(/\.{3,}/g, '...')`; with
`k = 2` and `c = '\n'` it is `replace(/\n{3,}/g, '\n\n')` (a run of
`n ≥ 3` is replaced by exactly `k` copies, shorter runs are kept). -/
def capRunAux (c : Char) (k : Nat) (cnt : Nat) : List Char → List Char
  | [] => []
  | x :: xs =>
    if x = c then
      if cnt < k then x :: capRunAux c k (cnt + 1) xs
      else capRunAux c k (cnt + 1) xs
    else x :: capRunAux c k 0 xs

def capRun (c : Char) (k : Nat) (s : List Char) : List Char :=
  capRunAux c k 0 s

/-- `String.prototype.trim`. -/
def jsTrim (s : List Char) : List Char :=
  ((s.dropWhile jsWhitespace).reverse.dropWhile jsWhitespace).reverse

/-- `OcrService.cleanText`, the exact chain of the source:
`replace(/\s+/g,' ')` then `replace(/[^\x20-\x7E\n]/g,'')` then
`replace(/\.{3,}/g,'...')` then `replace(/\n{3,}/g,'\n\n')` then
`trim()`. -/
def cleanText (s : List Char) : List Char :=
  jsTrim (capRun '\n' 2 (capRun '.' 3 ((collapseWs s).filter printableKeep)))

/-- `OcrService.countWords`: `split(/\s+/).filter(w => w.length > 0).length`,
which counts maximal non-whitespace runs. -/
def countWords (s : List Char) : Nat :=
  ((s.splitOnP (fun c => jsWhitespace c)).filter (fun w => w.length > 0)).length

/-- `EmbeddingsService.chunkText`'s loop, with a fuel argument for
structural termination (`chunkText` passes `text.length + 1`, which
`chunkText_spec` shows is never exhausted when the documented contract
`overlap < maxChunkSize` holds).  The source advances
`position += maxChunkSize - overlap`; when `overlap ≥ maxChunkSize` the
source loop never advances (it would not terminate), so the model stops
after one chunk in that out-of-contract case. -/
def chunkAux (text : List Char) (maxChunkSize overlap : Nat) :
    Nat → Nat → List (List Char)
  | 0, _ => []
  | fuel + 1, pos =>
    if pos < text.length then
      let chunk := (text.drop pos).take maxChunkSize
      if overlap < maxChunkSize then
        chunk :: chunkAux text maxChunkSize overlap fuel
          (pos + (maxChunkSize - overlap))
      else [chunk]
    else []

/-- `EmbeddingsService.chunkText` (defaults in the source:
`maxChunkSize = 1500`, `overlap = 200`). -/
def chunkText (text : List Char) (maxChunkSize overlap : Nat) :
    List (List Char) :=
  chunkAux text maxChunkSize overlap (text.length + 1) 0

/-! ## Embedding generation (`EmbeddingsService`)

The transformer pipeline is opaque: an `Embedder` maps one (truncated)
text to a vector of rationals.  A batch call on a list of texts returns
the row-major concatenation of the per-text vectors (`output.data` of
the `[n, 384]` tensor), which the source slices back apart. -/

abbrev Embedder := List Char → List ℚ

def embeddingDimension : Nat := 384

/-- `EmbeddingsService.generateEmbedding`.  The source throws when the
model is not initialized, when `!text || text.trim().length === 0`, and
when the returned vector is not 384-dimensional; it truncates the input
to 2000 characters first. -/
def generateEmbedding (embedder : Option Embedder) (text : List Char) :
    Except String (List ℚ) :=
  match embedder with
  | none => .error "Embedding model not initialized"
  | some model =>
    if (jsTrim text).length = 0 then .error "Text cannot be empty"
    else
      let truncatedText := text.take 2000
      let embedding := model truncatedText
      if embedding.length ≠ embeddingDimension then
        .error "Unexpected embedding dimension"
      else .ok embedding

/-- `EmbeddingsService.generateEmbeddingsBatch`.  The source truncates
each text, passes the whole list to the model, and slices
`output.data` into consecutive 384-wide windows — with no per-text
emptiness check and no dimension check. -/
def generateEmbeddingsBatch (embedder : Option Embedder)
    (texts : List (List Char)) : Except String (List (List ℚ)) :=
  match embedder with
  | none => .error "Embedding model not initialized"
  | some model =>
    if texts.length = 0 then .ok []
    else
      let truncatedTexts := texts.map (fun t => t.take 2000)
      let data := (truncatedTexts.map model).flatten
      .ok ((List.range texts.length).map (fun i =>
        (data.drop (i * embeddingDimension)).take embeddingDimension))

/-! ## Snippet extraction (`SearchService.truncateContent`) -/

/-- JS `String.prototype.split(/\s+/)`: fields between maximal
whitespace runs; a leading or trailing run contributes an empty field,
and splitting the empty string yields `[""]`. -/
def splitWsAux (inRun : Bool) (cur : List Char) : List Char → List (List Char)
  | [] => [cur.reverse]
  | c :: cs =>
    if jsWhitespace c then
      if inRun then splitWsAux true cur cs
      else cur.reverse :: splitWsAux true [] cs
    else splitWsAux false (c :: cur) cs

def splitWs (s : List Char) : List (List Char) := splitWsAux false [] s

/-- JS `String.prototype.indexOf`: position of the first occurrence of
`pat`, with `indexOf("") = 0`. -/
def indexOfFrom (pat : List Char) : List Char → Option Nat
  | [] => if pat.isEmpty then some 0 else none
  | c :: cs =>
    if pat.isPrefixOf (c :: cs) then some 0
    else match indexOfFrom pat cs with
      | some n => some (n + 1)
      | none => none

/-- The `for (const term of queryTerms) { ... break; }` loop of
`truncateContent`: `bestPosition` is the `indexOf` position of the
first term, in query order, that occurs at all; `0` when none does. -/
def findTermPos (lowerText : List Char) : List (List Char) → Nat
  | [] => 0
  | t :: ts =>
    match indexOfFrom t lowerText with
    | some p => p
    | none => findTermPos lowerText ts

/-- `SearchService.truncateContent` (`maxLength = 300` at every call
site).  Case folding is modelled with `Char.toLower` (ASCII).  Note
`Math.max(0, bestPosition - 100)` is `Nat` truncated subtraction. -/
def truncateContent (text query : List Char) (maxLength : Nat) : List Char :=
  if text.isEmpty then []
  else
    let queryTerms := splitWs (query.map Char.toLower)
    let lowerText := text.map Char.toLower
    let bestPosition := findTermPos lowerText queryTerms
    let snippetStart := bestPosition - 100
    let snippetEnd := min text.length (snippetStart + maxLength)
    let snippet := (text.drop snippetStart).take (snippetEnd - snippetStart)
    let withPre := if snippetStart > 0 then '.' :: '.' :: '.' :: snippet else snippet
    let withSuf :=
      if snippetEnd < text.length then withPre ++ ['.', '.', '.'] else withPre
    jsTrim withSuf

/-- Modelled from the spec's words for comparison with
`truncateContent` (claim C5): identical window assembly, but anchored
at the **earliest** character position in the text at which **any**
query term occurs. -/
def snippetSpec (text query : List Char) (maxLength : Nat) : List Char :=
  if text.isEmpty then []
  else
    let queryTerms := splitWs (query.map Char.toLower)
    let lowerText := text.map Char.toLower
    let positions := queryTerms.filterMap (fun t => indexOfFrom t lowerText)
    let bestPosition :=
      match positions with
      | [] => 0
      | p :: ps => ps.foldl min p
    let snippetStart := bestPosition - 100
    let snippetEnd := min text.length (snippetStart + maxLength)
    let snippet := (text.drop snippetStart).take (snippetEnd - snippetStart)
    let withPre := if snippetStart > 0 then '.' :: '.' :: '.' :: snippet else snippet
    let withSuf :=
      if snippetEnd < text.length then withPre ++ ['.', '.', '.'] else withPre
    jsTrim withSuf

/-- The anchor `truncateContent` actually uses, 100 characters of
look-behind included: the `indexOf` position of the first query term,
in query-token order, that occurs in the lower-cased text (`0` when
none does), minus 100 with clamping at 0. -/
def anchorStart (text query : List Char) : Nat :=
  ((splitWs (query.map Char.toLower)).findSome?
    (fun t => indexOfFrom t (text.map Char.toLower))).getD 0 - 100

/-! ## PDF text extraction and the document pipeline (`OcrService`)

`fs.readFile` / `PDFParse` and the Tesseract worker are opaque: a
`PdfEnv` holds the parse result (or the open/parse failure) and the
recogniser.  Image payloads (`dataUrl`) are opaque handles. -/

structure PdfImage where
  width : Nat
  height : Nat
  dataUrl : Nat
  deriving Repr, DecidableEq

structure PdfTextPage where
  num : Nat
  text : List Char
  deriving Repr, DecidableEq

structure PdfImagePage where
  pageNumber : Nat
  images : List PdfImage
  deriving Repr, DecidableEq

/-- The result of `new PDFParse({data}).getText()` / `.getImage(...)`
for one file. -/
structure PdfFile where
  fullText : List Char
  textPages : List PdfTextPage
  imagePages : List PdfImagePage
  deriving Repr

structure PdfEnv where
  /-- `fs.readFile` + `PDFParse` construction: the parse result, or the
  error thrown when the file cannot be opened/parsed. -/
  readFile : Except String PdfFile
  /-- `worker.recognize(dataUrl)`: recognised text, or the OCR error. -/
  recognize : Nat → Except String (List Char)

/-- One step of the regex `/--\s*\d+\s*of\s*\d+\s*--/gi`: if the marker
matches at the head of `s`, the remainder after the match.  The pattern
has no backtracking (its adjacent classes are disjoint), so greedy
maximal munch is exact. -/
def matchMarker (s : List Char) : Option (List Char) :=
  match s with
  | '-' :: '-' :: s1 =>
    let s2 := s1.dropWhile jsWhitespace
    if (s2.takeWhile Char.isDigit).isEmpty then none
    else
      match (s2.dropWhile Char.isDigit).dropWhile jsWhitespace with
      | o :: f :: s4 =>
        if o.toLower = 'o' && f.toLower = 'f' then
          let s5 := s4.dropWhile jsWhitespace
          if (s5.takeWhile Char.isDigit).isEmpty then none
          else
            match (s5.dropWhile Char.isDigit).dropWhile jsWhitespace with
            | '-' :: '-' :: s6 => some s6
            | _ => none
        else none
      | _ => none
  | _ => none

/-- `text.replace(/--\s*\d+\s*of\s*\d+\s*--/gi, '')`, with fuel for
termination (a successful match always consumes at least two
characters, so `s.length` fuel is never exhausted). -/
def stripMarkersFuel : Nat → List Char → List Char
  | 0, s => s
  | _ + 1, [] => []
  | fuel + 1, c :: cs =>
    match matchMarker (c :: cs) with
    | some rest => stripMarkersFuel fuel rest
    | none => c :: stripMarkersFuel fuel cs

def stripMarkers (s : List Char) : List Char :=
  stripMarkersFuel s.length s

/-- The per-page record built by `extractTextFromPdf`
(`interface PageContent` in the source). -/
structure PageContent where
  pageNumber : Nat
  rawText : List Char
  cleanedText : List Char
  wordCount : Nat
  deriving Repr, DecidableEq

/-- A page record as the source builds it from raw text. -/
def mkPage (n : Nat) (raw : List Char) : PageContent :=
  { pageNumber := n
    rawText := raw
    cleanedText := cleanText raw
    wordCount := countWords (cleanText raw) }

/-- `images.reduce(...)`: the largest image by `width * height`
(`reduce` without seed starts from the first element; on a tie the
reducer keeps `current`). -/
def largestImage (head : PdfImage) (rest : List PdfImage) : PdfImage :=
  rest.foldl
    (fun prev current =>
      if prev.width * prev.height > current.width * current.height then prev
      else current)
    head

/-- The scanned-branch loop of `extractTextFromPdf`: a page with no
images becomes an empty `PageContent`; otherwise the largest image is
OCRed, and an OCR error propagates out of the whole loop (the source
has no try/catch around `worker.recognize`). -/
def ocrPages (recognize : Nat → Except String (List Char)) :
    List PdfImagePage → Except String (List PageContent)
  | [] => .ok []
  | pg :: rest =>
    match pg.images with
    | [] =>
      (ocrPages recognize rest).map (fun ps =>
        { pageNumber := pg.pageNumber, rawText := [], cleanedText := [],
          wordCount := 0 } :: ps)
    | img :: imgs =>
      match recognize (largestImage img imgs).dataUrl with
      | .error e => .error e
      | .ok text =>
        (ocrPages recognize rest).map (fun ps => mkPage pg.pageNumber text :: ps)

/-- `OcrService.extractTextFromPdf`: embedded text is used when the
marker-stripped, trimmed full text exceeds 500 characters (a
document-level decision); otherwise every page goes through OCR. -/
def extractTextFromPdf (env : PdfEnv) : Except String (List PageContent) :=
  match env.readFile with
  | .error e => .error e
  | .ok file =>
    let textWithoutMarkers := jsTrim (stripMarkers file.fullText)
    let hasEmbeddedText := textWithoutMarkers.length > 500
    if hasEmbeddedText then
      .ok (file.textPages.map (fun p => mkPage p.num p.text))
    else
      ocrPages env.recognize file.imagePages

/-- `enum OcrStatus` of `case-document.entity.ts`. -/
inductive OcrStatus where
  | pending
  | processing
  | completed
  | failed
  | manualReview
  deriving Repr, DecidableEq

/-- `interface OcrResult` of `ocr.service.ts`. -/
structure OcrResult where
  totalPages : Nat
  processedPages : Nat
  failedPages : Nat
  status : OcrStatus
  error : Option String
  deriving Repr, DecidableEq

/-- The fields of the `case_documents` row that `processDocument`
writes: `pageCount := none` means the run never reached the
`pageCount` update. -/
structure DocFinal where
  ocrStatus : OcrStatus
  ocrError : Option String
  pageCount : Option Nat
  processedAt : Bool
  deriving Repr, DecidableEq

/-- The environment of one `processDocument` run: the `findOne` result,
the PDF world behind the document's `filePath`, and whether
`processPage` (existence check, best-effort embedding, save, tsvector
update) completes without throwing for a given page. -/
structure DocEnv where
  documentId : String
  document : Option Unit
  pdf : PdfEnv
  pageSaveOk : PageContent → Bool

/-- The `ocrError` written on the `MANUAL_REVIEW` branch. -/
def manualReviewError (failedPages : Nat) : String :=
  toString failedPages ++ " pages failed to process"

/-- `OcrService.processDocument`.  Returns the `OcrResult` and the final
document row.  A missing document or an extraction error lands in the
outer catch: status `FAILED` with the thrown message. -/
def processDocument (env : DocEnv) : OcrResult × DocFinal :=
  match env.document with
  | none =>
    let msg := "Document " ++ env.documentId ++ " not found"
    ({ totalPages := 0, processedPages := 0, failedPages := 0,
       status := .failed, error := some msg },
     { ocrStatus := .failed, ocrError := some msg, pageCount := none,
       processedAt := false })
  | some _ =>
    match extractTextFromPdf env.pdf with
    | .error e =>
      ({ totalPages := 0, processedPages := 0, failedPages := 0,
         status := .failed, error := some e },
       { ocrStatus := .failed, ocrError := some e, pageCount := none,
         processedAt := false })
    | .ok pages =>
      let processedPages := (pages.filter (fun p => env.pageSaveOk p)).length
      let failedPages := (pages.filter (fun p => !env.pageSaveOk p)).length
      if failedPages = 0 then
        ({ totalPages := pages.length, processedPages := processedPages,
           failedPages := 0, status := .completed, error := none },
         { ocrStatus := .completed, ocrError := none,
           pageCount := some pages.length, processedAt := true })
      else if processedPages = 0 then
        ({ totalPages := pages.length, processedPages := 0,
           failedPages := failedPages, status := .failed, error := none },
         { ocrStatus := .failed, ocrError := some "All pages failed to process",
           pageCount := some pages.length, processedAt := false })
      else
        ({ totalPages := pages.length, processedPages := processedPages,
           failedPages := failedPages, status := .manualReview, error := none },
         { ocrStatus := .manualReview,
           ocrError := some (manualReviewError failedPages),
           pageCount := some pages.length, processedAt := false })

/-! ## Search (`SearchService`)

The `case_content` table is a list of rows; `c.id` is the primary key,
so each id occurs at most once (the refinement theorems carry that
hypothesis explicitly).  PostgreSQL's `plainto_tsquery` match, `ts_rank`
and the `<=>` vector-distance operator are opaque parameters of the
store.  `ORDER BY ... DESC` leaves the order of equal keys unspecified;
the model determinizes it as a stable descending sort.  The metadata
columns joined from the `cases` table (case number, parties, dates,
outcome, tribunal composition) are pass-through values owned by the
external case store and are represented by the `fileName` column
alone. -/

structure Row where
  id : Nat
  documentId : String
  caseId : String
  pageNumber : Nat
  cleanedText : List Char
  fileName : String
  embedding : Option (List ℚ)
  deriving Repr, DecidableEq

structure Pg where
  rows : List Row
  /-- `c.tsvector_content @@ plainto_tsquery('english', q)`. -/
  tsMatch : List Char → Row → Bool
  /-- `ts_rank(c.tsvector_content, plainto_tsquery('english', q))`. -/
  tsRank : List Char → Row → ℚ
  /-- the pgvector `<=>` (cosine distance) operator. -/
  vecDist : List ℚ → List ℚ → ℚ

inductive MatchType where
  | fullText
  | semantic
  | hybrid
  deriving Repr, DecidableEq

/-- `interface SearchResult` (the externally owned `caseMetadata` block
is represented by `documentName`). -/
structure SearchRes where
  documentId : String
  documentName : String
  caseId : String
  pageNumber : Nat
  content : List Char
  score : ℚ
  matchType : MatchType
  deriving Repr, DecidableEq

/-- Stable insertion into a descending-sorted list: `x` goes before the
first element whose key is `≤` its own. -/
def insertDesc (key : α → ℚ) (x : α) : List α → List α
  | [] => [x]
  | y :: ys => if key y ≤ key x then x :: y :: ys else y :: insertDesc key x ys

/-- Stable descending sort by a rational key (the determinization of
`ORDER BY key DESC`). -/
def sortDesc (key : α → ℚ) : List α → List α
  | [] => []
  | x :: xs => insertDesc key x (sortDesc key xs)

/-- The `SearchResult` object built from a full-text row. -/
def mkFullTextRes (pg : Pg) (query : List Char) (r : Row) : SearchRes :=
  { documentId := r.documentId, documentName := r.fileName,
    caseId := r.caseId, pageNumber := r.pageNumber,
    content := truncateContent r.cleanedText query 300,
    score := pg.tsRank query r, matchType := .fullText }

/-- `SearchService.fullTextSearch`: rows matching the query, ordered by
`ts_rank` descending, truncated, snippeted. -/
def fullTextSearch (pg : Pg) (query : List Char) (limit : Nat) :
    List SearchRes :=
  let matched := pg.rows.filter (pg.tsMatch query)
  let ranked := sortDesc (fun r => pg.tsRank query r) matched
  (ranked.take limit).map (mkFullTextRes pg query)

/-- `1 - (c.embedding <=> $query)`. -/
def semScoreOf (pg : Pg) (qvec : List ℚ) (r : Row) : ℚ :=
  1 - pg.vecDist (r.embedding.getD []) qvec

/-- The `SearchResult` object built from a semantic row. -/
def mkSemanticRes (pg : Pg) (query : List Char) (qvec : List ℚ) (r : Row) :
    SearchRes :=
  { documentId := r.documentId, documentName := r.fileName,
    caseId := r.caseId, pageNumber := r.pageNumber,
    content := truncateContent r.cleanedText query 300,
    score := semScoreOf pg qvec r, matchType := .semantic }

/-- `SearchService.semanticSearch`: embeds the query (an embedding
failure fails the whole call), keeps rows with a non-null embedding,
orders by `<=>` distance ascending, truncates, snippets. -/
def semanticSearch (pg : Pg) (embedder : Option Embedder)
    (query : List Char) (limit : Nat) : Except String (List SearchRes) :=
  (generateEmbedding embedder query).map (fun qvec =>
    let cands := pg.rows.filter (fun r => r.embedding.isSome)
    let ranked :=
      sortDesc (fun r => -(pg.vecDist (r.embedding.getD []) qvec)) cands
    (ranked.take limit).map (mkSemanticRes pg query qvec))

/-- One output row of the `FULL OUTER JOIN full_text_scores ft
... semantic_scores sem ON ft.id = sem.id`. -/
structure JoinedRow where
  row : Row
  ftScore : Option ℚ
  semScore : Option ℚ
  deriving Repr, DecidableEq

/-- `COALESCE(ft.ft_score, 0) * $3 + COALESCE(sem.sem_score, 0) * $4`. -/
def hybridScore (w1 w2 : ℚ) (j : JoinedRow) : ℚ :=
  j.ftScore.getD 0 * w1 + j.semScore.getD 0 * w2

/-- The full outer join of the two CTEs, keyed on the primary key
`c.id`: matched pairs and left-only rows in left order, then right-only
rows in right order (the `ORDER BY` applies afterwards). -/
def fullOuterJoin (pg : Pg) (query : List Char) (qvec : List ℚ)
    (ftRows semRows : List Row) : List JoinedRow :=
  ftRows.map (fun r =>
    { row := r, ftScore := some (pg.tsRank query r),
      semScore :=
        if semRows.any (fun s => s.id = r.id) then some (semScoreOf pg qvec r)
        else none }) ++
  (semRows.filter (fun s => ¬ ftRows.any (fun f => f.id = s.id))).map (fun s =>
    { row := s, ftScore := none, semScore := some (semScoreOf pg qvec s) })

/-- The two CTEs joined: `full_text_scores` is the lexical filter of
the table, `semantic_scores` the embedded rows, full-outer-joined on
the primary key. -/
def hybridJoin (pg : Pg) (query : List Char) (qvec : List ℚ) :
    List JoinedRow :=
  fullOuterJoin pg query qvec
    (pg.rows.filter (pg.tsMatch query))
    (pg.rows.filter (fun r => r.embedding.isSome))

/-- The left (matched + lexical-only) block of the outer join. -/
def lexJoined (pg : Pg) (query : List Char) (qvec : List ℚ) :
    List JoinedRow :=
  (pg.rows.filter (pg.tsMatch query)).map (fun r =>
    { row := r, ftScore := some (pg.tsRank query r),
      semScore :=
        if (pg.rows.filter (fun r2 => r2.embedding.isSome)).any
            (fun s2 => s2.id = r.id) then
          some (semScoreOf pg qvec r)
        else none })

/-- The right-only (semantic, lexically unmatched) block of the outer
join. -/
def semOnlyJoined (pg : Pg) (query : List Char) (qvec : List ℚ) :
    List JoinedRow :=
  ((pg.rows.filter (fun r => r.embedding.isSome)).filter (fun s =>
      ¬ (pg.rows.filter (pg.tsMatch query)).any (fun f => f.id = s.id))).map
    (fun s => { row := s, ftScore := none,
                semScore := some (semScoreOf pg qvec s) })

/-- The `SearchResult` object built from a joined hybrid row. -/
def mkHybridRes (query : List Char) (w1 w2 : ℚ) (j : JoinedRow) :
    SearchRes :=
  { documentId := j.row.documentId, documentName := j.row.fileName,
    caseId := j.row.caseId, pageNumber := j.row.pageNumber,
    content := truncateContent j.row.cleanedText query 300,
    score := hybridScore w1 w2 j, matchType := .hybrid }

/-- `SearchService.hybridSearch`: both CTEs over the same table, full
outer join on `id`, weighted `hybrid_score`, `ORDER BY hybrid_score
DESC LIMIT limit`. -/
def hybridSearch (pg : Pg) (embedder : Option Embedder) (query : List Char)
    (limit : Nat) (fullTextWeight semanticWeight : ℚ) :
    Except String (List SearchRes) :=
  (generateEmbedding embedder query).map (fun qvec =>
    let ranked := sortDesc (hybridScore fullTextWeight semanticWeight)
      (hybridJoin pg query qvec)
    (ranked.take limit).map (mkHybridRes query fullTextWeight semanticWeight))

/-- `SearchController.hybridSearch` passes `ftWeight || 0.5` and
`semWeight || 0.5`: an absent weight, and a weight of `0` (JS falsy),
both become the default `0.5`. -/
def controllerWeight (w : Option ℚ) : ℚ :=
  match w with
  | none => 1 / 2
  | some v => if v = 0 then 1 / 2 else v

/-! ## The in-memory job queue (`SimpleQueueService`)

JavaScript is single-threaded: a synchronous segment runs atomically,
and control is handed over only at `await`.  `processQueue` suspends
exactly once per job, at `await this.ocrService.processDocument(...)`
inside `processJob`; the state therefore records, besides the array and
the two scalars of the service, which job id the worker is suspended on
(`awaiting`).  Events: `addJob`, a bare `processQueue()` call (the
`onModuleInit` kick), resolution or rejection of the awaited
`processDocument` promise, and `clearCompleted`.  Timestamps and the
stored `OcrResult` are not modelled. -/

inductive JobStatus where
  | waiting
  | active
  | completed
  | failed
  deriving Repr, DecidableEq

structure QueueJob where
  id : Nat
  documentId : String
  caseId : String
  fileName : String
  status : JobStatus
  progress : Nat
  deriving Repr, DecidableEq

structure QueueState where
  queue : List QueueJob
  isProcessing : Bool
  jobIdCounter : Nat
  /-- the id of the job whose `processDocument` the worker is awaiting -/
  awaiting : Option Nat
  deriving Repr, DecidableEq

def initState : QueueState :=
  { queue := [], isProcessing := false, jobIdCounter := 0, awaiting := none }

/-- Replace the job with id `jid` (the source mutates the found object;
ids are unique in every reachable state, see `queueInv`). -/
def setJob (q : List QueueJob) (jid : Nat) (f : QueueJob → QueueJob) :
    List QueueJob :=
  q.map (fun j => if j.id = jid then f j else j)

/-- The synchronous body of the `processQueue` loop up to its next
suspension: find the first `waiting` job and start it (status
`active`, `progress = 10`, suspend on its `processDocument`), or exit
the loop and clear `isProcessing`. -/
def activateFirstWaiting (s : QueueState) : QueueState :=
  match s.queue.find? (fun j => j.status == .waiting) with
  | some j =>
    { s with
      queue := setJob s.queue j.id (fun k =>
        { k with status := .active, progress := 10 })
      isProcessing := true
      awaiting := some j.id }
  | none => { s with isProcessing := false, awaiting := none }

/-- A `processQueue()` call: returns at once if `isProcessing`
(re-entrancy guard), otherwise runs synchronously to the first
suspension. -/
def startQueue (s : QueueState) : QueueState :=
  if s.isProcessing then s else activateFirstWaiting s

/-- `SimpleQueueService.addJob`: push a `waiting` job with a fresh id,
then `if (!this.isProcessing) this.processQueue()` (the guard is
redundant with `processQueue`'s own, so this is `startQueue`). -/
def addJob (documentId caseId fileName : String) (s : QueueState) :
    QueueState :=
  let job : QueueJob :=
    { id := s.jobIdCounter + 1, documentId := documentId, caseId := caseId,
      fileName := fileName, status := .waiting, progress := 0 }
  startQueue
    { s with queue := s.queue ++ [job], jobIdCounter := s.jobIdCounter + 1 }

/-- The awaited `processDocument` settles: `processJob` marks the job
`completed` (resolution) or `failed` (rejection), then the
`processQueue` loop continues synchronously to its next suspension. -/
def resumeWorker (ok : Bool) (s : QueueState) : QueueState :=
  match s.awaiting with
  | none => s
  | some jid =>
    let q' := setJob s.queue jid (fun j =>
      if ok then { j with status := .completed, progress := 100 }
      else { j with status := .failed })
    activateFirstWaiting { s with queue := q', awaiting := none }

/-- `SimpleQueueService.clearCompleted`. -/
def clearCompleted (s : QueueState) : QueueState :=
  { s with
    queue := s.queue.filter (fun j =>
      j.status != .completed && j.status != .failed) }

/-- `SimpleQueueService.getStats`. -/
structure QueueStats where
  waiting : Nat
  active : Nat
  completed : Nat
  failed : Nat
  total : Nat
  deriving Repr, DecidableEq

def getStats (s : QueueState) : QueueStats :=
  { waiting := (s.queue.filter (fun j => j.status == .waiting)).length
    active := (s.queue.filter (fun j => j.status == .active)).length
    completed := (s.queue.filter (fun j => j.status == .completed)).length
    failed := (s.queue.filter (fun j => j.status == .failed)).length
    total := s.queue.length }

/-- The observable events of the service. -/
inductive QEvent where
  | add (documentId caseId fileName : String)
  | kick
  | settle (ok : Bool)
  | clear
  deriving Repr, DecidableEq

def applyEvent : QEvent → QueueState → QueueState
  | .add d c f, s => addJob d c f s
  | .kick, s => startQueue s
  | .settle ok, s => resumeWorker ok s
  | .clear, s => clearCompleted s

def runEvents (evs : List QEvent) : QueueState :=
  evs.foldl (fun s e => applyEvent e s) initState

/-- The states of the service reachable by any interleaving of calls
and promise resolutions. -/
inductive Reachable : QueueState → Prop
  | init : Reachable initState
  | step (e : QEvent) {s : QueueState} :
      Reachable s → Reachable (applyEvent e s)

/-- The inductive invariant of the queue: job ids are distinct and
bounded by the counter, `isProcessing` holds exactly while the worker
is suspended on some job, and every `active` job is the one the worker
is suspended on. -/
def QueueInv (s : QueueState) : Prop :=
  (s.queue.map (fun j => j.id)).Nodup ∧
  (∀ j ∈ s.queue, j.id ≤ s.jobIdCounter) ∧
  (s.isProcessing = s.awaiting.isSome) ∧
  (∀ j ∈ s.queue, j.status = .active → s.awaiting = some j.id)

/-! ## Concrete instances used as witnesses and counterexamples -/

/-- A born-digital three-page file: 501 embedded characters clear the
500-character threshold. -/
def threePageFile : PdfFile :=
  { fullText := List.replicate 501 'a'
    textPages := [{ num := 1, text := ['p', '1'] },
                  { num := 2, text := ['p', '2'] },
                  { num := 3, text := ['p', '3'] }]
    imagePages := [] }

/-- A run on `threePageFile` in which persisting page 2 throws. -/
def envC1 : DocEnv :=
  { documentId := "d1", document := some ()
    pdf := { readFile := .ok threePageFile, recognize := fun _ => .ok [] }
    pageSaveOk := fun p => p.pageNumber != 2 }

def pagesC1 : List PageContent :=
  [mkPage 1 ['p', '1'], mkPage 2 ['p', '2'], mkPage 3 ['p', '3']]

/-- A scanned page holding a single full-page image. -/
def scannedImgPage (n : Nat) : PdfImagePage :=
  { pageNumber := n, images := [{ width := 10, height := 10, dataUrl := n }] }

/-- A scanned three-page file (no embedded text at all). -/
def scannedFileC2 : PdfFile :=
  { fullText := [], textPages := []
    imagePages := [scannedImgPage 1, scannedImgPage 2, scannedImgPage 3] }

/-- OCR succeeds on pages 1 and 3 and fails on page 2. -/
def recogC2 : Nat → Except String (List Char) := fun n =>
  if n = 2 then .error "OCR failed on page 2" else .ok ['o', 'k']

/-- A run on `scannedFileC2` in which every persist would succeed. -/
def envC2 : DocEnv :=
  { documentId := "d2", document := some ()
    pdf := { readFile := .ok scannedFileC2, recognize := recogC2 }
    pageSaveOk := fun _ => true }

/-- A loaded model that maps every text to the zero vector. -/
def constEmbedder : Embedder := fun _ => List.replicate embeddingDimension 0

/-- Everything a `SearchRes` carries except its `matchType` tag (the
tag legitimately differs between the three search modes, so ranking
comparisons project it away). -/
def resData (r : SearchRes) : String × String × String × Nat × List Char × ℚ :=
  (r.documentId, r.documentName, r.caseId, r.pageNumber, r.content, r.score)

/-- A lexical-only row: no embedding. -/
def rowLex : Row :=
  { id := 1, documentId := "d1", caseId := "c1", pageNumber := 1,
    cleanedText := ['t'], fileName := "f1", embedding := none }

/-- A semantic-only row: embedded, never matched lexically. -/
def rowSem : Row :=
  { id := 2, documentId := "d2", caseId := "c2", pageNumber := 2,
    cleanedText := ['u'], fileName := "f2", embedding := some [] }

/-- A store whose only row is embedded and matches no lexical query. -/
def pgC4 : Pg :=
  { rows := [rowSem], tsMatch := fun _ _ => false,
    tsRank := fun _ _ => 0, vecDist := fun _ _ => 0 }

/-- A store with one lexical-only and one semantic-only row. -/
def pgC3 : Pg :=
  { rows := [rowLex, rowSem], tsMatch := fun _ r => r.id == 1,
    tsRank := fun _ _ => 2, vecDist := fun _ _ => 0 }

/-- A page text with "banana" at position 0 and "apple" at position
107 (beyond the 100-character look-behind). -/
def textC5 : List Char :=
  ['b', 'a', 'n', 'a', 'n', 'a'] ++ List.replicate 101 'x' ++
    ['a', 'p', 'p', 'l', 'e']

/-- A query whose first token is the term occurring *later* in
`textC5`. -/
def queryC5 : List Char :=
  ['a', 'p', 'p', 'l', 'e', ' ', 'b', 'a', 'n', 'a', 'n', 'a']

/-! ## C1 — the terminal status transition of `processDocument` -/

/-- C1: for every run of `processDocument` on an existing document whose
extraction yields a list of `N` pages, the final status is `COMPLETED`
when every page is persisted without error, `FAILED` with an explanatory
`ocrError` when zero pages succeed (and at least one page existed, or
the file failed to open at all), and `MANUAL_REVIEW` with an `ocrError`
naming the failed-page count when some but not all pages succeed. -/
theorem processDocument_status_machine (env : DocEnv)
    (hdoc : env.document.isSome) :
    (∀ pages, extractTextFromPdf env.pdf = .ok pages →
      ((∀ p ∈ pages, env.pageSaveOk p) →
        (processDocument env).1.status = OcrStatus.completed ∧
        (processDocument env).2.ocrStatus = OcrStatus.completed) ∧
      ((pages ≠ [] ∧ ∀ p ∈ pages, ¬ env.pageSaveOk p) →
        (processDocument env).1.status = OcrStatus.failed ∧
        (processDocument env).2.ocrStatus = OcrStatus.failed ∧
        (processDocument env).2.ocrError =
          some "All pages failed to process") ∧
      (((∃ p ∈ pages, env.pageSaveOk p) ∧ (∃ p ∈ pages, ¬ env.pageSaveOk p)) →
        (processDocument env).1.status = OcrStatus.manualReview ∧
        (processDocument env).2.ocrStatus = OcrStatus.manualReview ∧
        (processDocument env).2.ocrError =
          some (manualReviewError
            ((pages.filter (fun p => !env.pageSaveOk p)).length)))) ∧
    (∀ e, extractTextFromPdf env.pdf = .error e →
      (processDocument env).1.status = OcrStatus.failed ∧
      (processDocument env).2.ocrStatus = OcrStatus.failed ∧
      (processDocument env).2.ocrError = some e) := by
  obtain ⟨u, hu⟩ := Option.isSome_iff_exists.mp hdoc
  constructor
  · intro pages hp
    refine ⟨?_, ?_, ?_⟩
    · intro hall
      have hfail : pages.filter (fun p => !env.pageSaveOk p) = [] :=
        List.filter_eq_nil_iff.mpr (fun a ha => by simp [hall a ha])
      simp [processDocument, hu, hp, hfail]
    · rintro ⟨hne, hnone⟩
      have h1 : pages.filter (fun p => env.pageSaveOk p) = [] :=
        List.filter_eq_nil_iff.mpr (fun a ha => by simpa using hnone a ha)
      have h2 : pages.filter (fun p => !env.pageSaveOk p) = pages :=
        List.filter_eq_self.mpr (fun a ha => by simpa using hnone a ha)
      have h3 : pages.length ≠ 0 := by
        simpa using (List.length_pos.mpr hne).ne'
      simp [processDocument, hu, hp, h1, h2, h3]
    · rintro ⟨⟨a, ha, hoka⟩, ⟨b, hb, hbadb⟩⟩
      have h1 : (pages.filter (fun p => env.pageSaveOk p)).length ≠ 0 := by
        have hm : a ∈ pages.filter (fun p => env.pageSaveOk p) :=
          List.mem_filter.mpr ⟨ha, by simpa using hoka⟩
        simpa using (List.length_pos.mpr (List.ne_nil_of_mem hm)).ne'
      have h2 : (pages.filter (fun p => !env.pageSaveOk p)).length ≠ 0 := by
        have hm : b ∈ pages.filter (fun p => !env.pageSaveOk p) :=
          List.mem_filter.mpr ⟨hb, by simpa using hbadb⟩
        simpa using (List.length_pos.mpr (List.ne_nil_of_mem hm)).ne'
      simp [processDocument, hu, hp, h1, h2]
  · intro e he
    simp [processDocument, hu, he]

set_option maxRecDepth 10000 in
/-- Witness for C1 at `envC1`: pages 1 and 3 persist, page 2 fails, so
the document ends in `MANUAL_REVIEW` with `ocrError` naming one failed
page. -/
theorem processDocument_status_machine_witness :
    (processDocument envC1).1.status = OcrStatus.manualReview ∧
    (processDocument envC1).2.ocrError = some (manualReviewError 1) := by
  have h := processDocument_status_machine envC1 rfl
  have h3 := (h.1 pagesC1 rfl).2.2
    ⟨⟨mkPage 1 ['p', '1'], by decide, by decide⟩,
     ⟨mkPage 2 ['p', '2'], by decide, by decide⟩⟩
  exact ⟨h3.1, h3.2.2⟩

/-! ## C2 — page-level OCR failures are not page-scoped -/

/-- C2, counterexample: on a three-page scanned document whose page-2
OCR call fails (`envC2`), the failure aborts the whole extraction and
`processDocument` marks the document `FAILED` with zero processed
pages — not `MANUAL_REVIEW` with `processedPages = 2` as the claim
states. -/
theorem ocr_page_failure_counterexample :
    extractTextFromPdf envC2.pdf = .error "OCR failed on page 2" ∧
    (processDocument envC2).1.status = OcrStatus.failed ∧
    (processDocument envC2).1.processedPages = 0 ∧
    (processDocument envC2).1.totalPages = 0 ∧
    (processDocument envC2).2.ocrStatus = OcrStatus.failed ∧
    (processDocument envC2).2.ocrError = some "OCR failed on page 2" :=
  ⟨rfl, rfl, rfl, rfl, rfl, rfl⟩

/-- If any scanned page with at least one image has a failing OCR call,
the whole loop throws (there is no try/catch around
`worker.recognize`). -/
theorem ocrPages_error_of_failure
    (recognize : Nat → Except String (List Char)) :
    ∀ pages : List PdfImagePage,
      (∃ pg ∈ pages, ∃ img imgs e, pg.images = img :: imgs ∧
        recognize (largestImage img imgs).dataUrl = .error e) →
      ∃ e, ocrPages recognize pages = .error e := by
  intro pages
  induction pages with
  | nil => rintro ⟨pg, hmem, _⟩; cases hmem
  | cons hd tl ih =>
    rintro ⟨pg, hmem, img, imgs, e, himgs, herr⟩
    rcases List.mem_cons.mp hmem with heq | htl
    · subst heq
      exact ⟨e, by simp [ocrPages, himgs, herr]⟩
    · cases hhd : hd.images with
      | nil =>
        obtain ⟨e2, he2⟩ := ih ⟨pg, htl, img, imgs, e, himgs, herr⟩
        exact ⟨e2, by simp [ocrPages, hhd, he2, Except.map]⟩
      | cons i is =>
        cases hrec : recognize (largestImage i is).dataUrl with
        | error e2 => exact ⟨e2, by simp [ocrPages, hhd, hrec]⟩
        | ok t =>
          obtain ⟨e2, he2⟩ := ih ⟨pg, htl, img, imgs, e, himgs, herr⟩
          exact ⟨e2, by simp [ocrPages, hhd, hrec, he2, Except.map]⟩

/-- C2 amended: once the document-level "scanned" branch is taken, an
OCR failure on an individual page is **not** page-scoped: it aborts the
entire extraction (no page is produced) and `processDocument` ends in
`FAILED` with `processedPages = 0`.  (Only pages with no embedded
images are page-scoped — they yield empty content and the loop
continues; and failures of the per-page persist step after a fully
successful extraction are page-scoped as in C1.) -/
theorem ocr_failure_aborts_extraction (env : DocEnv) (file : PdfFile)
    (hdoc : env.document.isSome)
    (hread : env.pdf.readFile = .ok file)
    (hscan : (jsTrim (stripMarkers file.fullText)).length ≤ 500)
    (hfail : ∃ pg ∈ file.imagePages, ∃ img imgs e,
      pg.images = img :: imgs ∧
      env.pdf.recognize (largestImage img imgs).dataUrl = .error e) :
    (∃ e, extractTextFromPdf env.pdf = .error e ∧
      (processDocument env).2.ocrError = some e) ∧
    (processDocument env).1.status = OcrStatus.failed ∧
    (processDocument env).1.processedPages = 0 ∧
    (processDocument env).2.ocrStatus = OcrStatus.failed := by
  obtain ⟨u, hu⟩ := Option.isSome_iff_exists.mp hdoc
  obtain ⟨e, he⟩ := ocrPages_error_of_failure env.pdf.recognize
    file.imagePages hfail
  have hext : extractTextFromPdf env.pdf = .error e := by
    simp [extractTextFromPdf, hread, Nat.not_lt.mpr hscan, he]
  refine ⟨⟨e, hext, ?_⟩, ?_, ?_, ?_⟩ <;>
    simp [processDocument, hu, hext]

set_option maxRecDepth 2000 in
/-- Witness for the amended C2 at `envC2`. -/
theorem ocr_failure_aborts_extraction_witness :
    (processDocument envC2).1.status = OcrStatus.failed ∧
    (processDocument envC2).1.processedPages = 0 := by
  have h := ocr_failure_aborts_extraction envC2 scannedFileC2 rfl rfl
    (by decide)
    ⟨scannedImgPage 2, by decide,
     { width := 10, height := 10, dataUrl := 2 }, [],
     "OCR failed on page 2", rfl, rfl⟩
  exact ⟨h.2.1, h.2.2.1⟩

/-! ## C6 — the cleaning policy of `cleanText` -/

/-- C6, counterexample: an input with three consecutive newlines does
**not** yield a blank line — `replace(/\s+/g, ' ')` runs first and
turns the newline run into a single space, so
`cleanText "a\n\n\nb" = "a b"`. -/
theorem cleanText_newline_counterexample :
    cleanText ['a', '\n', '\n', '\n', 'b'] = ['a', ' ', 'b'] ∧
    '\n' ∉ cleanText ['a', '\n', '\n', '\n', 'b'] := by decide

theorem newline_not_mem_collapseWsAux :
    ∀ (s : List Char) (b : Bool), '\n' ∉ collapseWsAux b s := by
  intro s
  induction s with
  | nil => intro b; simp [collapseWsAux]
  | cons c cs ih =>
    intro b
    by_cases hc : jsWhitespace c
    · cases b with
      | true => simpa [collapseWsAux, hc] using ih true
      | false =>
        intro h
        simp only [collapseWsAux, hc, if_true] at h
        rcases List.mem_cons.mp h with h1 | h2
        · exact absurd h1 (by decide)
        · exact ih true h2
    · intro h
      simp only [collapseWsAux, hc, if_false] at h
      rcases List.mem_cons.mp h with h1 | h2
      · exact hc (h1 ▸ (by decide : jsWhitespace '\n' = true))
      · exact ih false h2

theorem mem_of_mem_capRunAux {x c : Char} {k : Nat} :
    ∀ (s : List Char) (n : Nat), x ∈ capRunAux c k n s → x ∈ s := by
  intro s
  induction s with
  | nil => intro n h; simp [capRunAux] at h
  | cons y ys ih =>
    intro n h
    simp only [capRunAux] at h
    split_ifs at h
    · rcases List.mem_cons.mp h with h1 | h2
      · exact h1 ▸ List.mem_cons_self _ _
      · exact List.mem_cons_of_mem _ (ih _ h2)
    · exact List.mem_cons_of_mem _ (ih _ h)
    · rcases List.mem_cons.mp h with h1 | h2
      · exact h1 ▸ List.mem_cons_self _ _
      · exact List.mem_cons_of_mem _ (ih _ h2)

theorem mem_of_mem_jsTrim {x : Char} {s : List Char} (h : x ∈ jsTrim s) :
    x ∈ s := by
  unfold jsTrim at h
  rw [List.mem_reverse] at h
  have h1 := (List.dropWhile_sublist _).subset h
  rw [List.mem_reverse] at h1
  exact (List.dropWhile_sublist _).subset h1

/-- C6 amended: `cleanText` collapses every whitespace run — newline
runs included — to a single space *first*, then drops non-printables,
collapses 3+ period runs to an ellipsis, and trims; the
newline-collapsing step `replace(/\n{3,}/g, '\n\n')` is unreachable
dead code, and the output never contains a newline at all (so no input
ever yields a blank line). -/
theorem cleanText_no_newline (s : List Char) : '\n' ∉ cleanText s := by
  intro h
  simp only [cleanText, capRun, collapseWs] at h
  have h1 := mem_of_mem_capRunAux _ _ (mem_of_mem_jsTrim h)
  have h2 := mem_of_mem_capRunAux _ _ h1
  have h3 := (List.mem_filter.mp h2).1
  exact newline_not_mem_collapseWsAux s false h3

/-! ## C8 — `chunkText` terminates and tiles the text -/

/-- With enough fuel, the `i`-th chunk produced from start position
`pos` is the `maxChunkSize`-window at
`pos + i * (maxChunkSize - overlap)`. -/
theorem chunkAux_get (text : List Char) (mcs ov : Nat) (ho : ov < mcs) :
    ∀ fuel pos, text.length - pos < fuel →
      ∀ i (h : i < (chunkAux text mcs ov fuel pos).length),
        (chunkAux text mcs ov fuel pos).get ⟨i, h⟩ =
          (text.drop (pos + i * (mcs - ov))).take mcs := by
  intro fuel
  induction fuel with
  | zero => intro pos hf; omega
  | succ fuel ih =>
    intro pos hf i h
    by_cases hp : pos < text.length
    · have hunf : chunkAux text mcs ov (fuel + 1) pos =
          ((text.drop pos).take mcs) ::
            chunkAux text mcs ov fuel (pos + (mcs - ov)) := by
        simp [chunkAux, hp, ho]
      match i with
      | 0 => simp [hunf]
      | j + 1 =>
        have h' : j < (chunkAux text mcs ov fuel (pos + (mcs - ov))).length := by
          have := h
          rw [hunf] at this
          simpa using this
        have hrec := ih (pos + (mcs - ov)) (by omega) j h'
        have hidx : pos + (mcs - ov) + j * (mcs - ov) =
            pos + (j + 1) * (mcs - ov) := by ring
        calc (chunkAux text mcs ov (fuel + 1) pos).get ⟨j + 1, h⟩
            = (chunkAux text mcs ov fuel (pos + (mcs - ov))).get ⟨j, h'⟩ := by
              simp [hunf]
          _ = (text.drop (pos + (mcs - ov) + j * (mcs - ov))).take mcs := hrec
          _ = (text.drop (pos + (j + 1) * (mcs - ov))).take mcs := by
              rw [hidx]
    · have hstop : chunkAux text mcs ov (fuel + 1) pos = [] := by
        simp [chunkAux, hp]
      rw [hstop] at h
      exact absurd h (by simp)

/-- Every position of the text is covered by some chunk's window. -/
theorem chunkAux_cover (text : List Char) (mcs ov : Nat) (ho : ov < mcs) :
    ∀ fuel pos, text.length - pos < fuel →
      ∀ j, pos ≤ j → j < text.length →
        ∃ i, i < (chunkAux text mcs ov fuel pos).length ∧
          pos + i * (mcs - ov) ≤ j ∧ j < pos + i * (mcs - ov) + mcs := by
  intro fuel
  induction fuel with
  | zero => intro pos hf j h1 h2; omega
  | succ fuel ih =>
    intro pos hf j h1 h2
    have hp : pos < text.length := by omega
    have hunf : chunkAux text mcs ov (fuel + 1) pos =
        ((text.drop pos).take mcs) ::
          chunkAux text mcs ov fuel (pos + (mcs - ov)) := by
      simp [chunkAux, hp, ho]
    by_cases hj : j < pos + mcs
    · exact ⟨0, by simp [hunf], by simpa using h1, by simpa using hj⟩
    · obtain ⟨i, hi, hlo, hhi⟩ :=
        ih (pos + (mcs - ov)) (by omega) j (by omega) h2
      refine ⟨i + 1, ?_, ?_, ?_⟩
      · rw [hunf]
        simpa using Nat.succ_lt_succ hi
      · rw [Nat.succ_mul]
        linarith
      · rw [Nat.succ_mul]
        linarith

/-- C8: for every text, `maxChunkSize > 0` and `0 ≤ overlap <
maxChunkSize`, `chunkText` terminates with a list of chunks in which
the `i`-th chunk is the window of (at most) `maxChunkSize` characters
starting at `i * (maxChunkSize - overlap)` — so successive start
positions differ by exactly `maxChunkSize - overlap` — and the chunks
jointly cover the whole text. -/
theorem chunkText_spec (text : List Char) (mcs ov : Nat)
    (_hm : 0 < mcs) (ho : ov < mcs) :
    (∀ i (h : i < (chunkText text mcs ov).length),
      (chunkText text mcs ov).get ⟨i, h⟩ =
        (text.drop (i * (mcs - ov))).take mcs) ∧
    (∀ c ∈ chunkText text mcs ov, c.length ≤ mcs) ∧
    (∀ j, j < text.length →
      ∃ i, i < (chunkText text mcs ov).length ∧
        i * (mcs - ov) ≤ j ∧ j < i * (mcs - ov) + mcs) := by
  refine ⟨?_, ?_, ?_⟩
  · intro i h
    have := chunkAux_get text mcs ov ho (text.length + 1) 0 (by omega) i h
    simpa using this
  · intro c hc
    simp only [chunkText] at hc
    obtain ⟨⟨i, hlt⟩, hget⟩ := List.mem_iff_get.mp hc
    have := chunkAux_get text mcs ov ho (text.length + 1) 0 (by omega) i hlt
    rw [this] at hget
    rw [← hget]
    simp
  · intro j hj
    have := chunkAux_cover text mcs ov ho (text.length + 1) 0 (by omega) j
      (Nat.zero_le j) hj
    simpa using this

/-- Witness for C8: `chunkText "abcdef" 3 1` tiles the text as
`["abc", "cde", "ef"]`, with starts `0, 2, 4`. -/
theorem chunkText_spec_witness :
    ((chunkText ['a', 'b', 'c', 'd', 'e', 'f'] 3 1).get
      ⟨1, by decide⟩ : List Char) = ['c', 'd', 'e'] := by
  have h := (chunkText_spec ['a', 'b', 'c', 'd', 'e', 'f'] 3 1
    (by decide) (by decide)).1
  exact (h 1 (by decide)).trans (by decide)

/-! ## C7 — batch embedding vs. single embedding -/

set_option maxRecDepth 10000 in
/-- C7, counterexample: the empty text makes `generateEmbedding` throw
`"Text cannot be empty"`, but `generateEmbeddingsBatch` has no per-text
emptiness check and happily succeeds on `[""]` — the batch call does
not behave identically for a failing item. -/
theorem generateEmbeddingsBatch_counterexample :
    generateEmbedding (some constEmbedder) [] =
      .error "Text cannot be empty" ∧
    generateEmbeddingsBatch (some constEmbedder) [[]] =
      .ok [List.replicate embeddingDimension 0] :=
  ⟨rfl, rfl⟩

/-- Slicing a concatenation of `d`-length blocks at offsets `i * d`
recovers the `i`-th block. -/
theorem flatten_window {α : Type} (d : Nat) :
    ∀ (ls : List (List α)), (∀ l ∈ ls, l.length = d) →
      ∀ i (hi : i < ls.length),
        (ls.flatten.drop (i * d)).take d = ls.get ⟨i, hi⟩ := by
  intro ls
  induction ls with
  | nil => intro _ i hi; exact absurd hi (by simp)
  | cons hd tl ih =>
    intro hlen i hi
    have hd_len : hd.length = d := hlen hd (List.mem_cons_self _ _)
    match i with
    | 0 =>
      simp only [List.flatten_cons, Nat.zero_mul, List.drop_zero]
      rw [← hd_len, List.take_left]
      simp
    | j + 1 =>
      have hlen' : ∀ l ∈ tl, l.length = d := fun l hl =>
        hlen l (List.mem_cons_of_mem _ hl)
      have hmul : (j + 1) * d = hd.length + j * d := by rw [hd_len]; ring
      rw [List.flatten_cons, hmul, List.drop_append]
      simpa using ih hlen' j (by simpa using hi)

/-- C7 amended: when every text in the batch is non-empty after
trimming and the model returns a 384-dimensional vector for each
truncated text, `generateEmbeddingsBatch` returns exactly the list of
per-item `generateEmbedding` results; the agreement breaks only on the
checks the batch path skips (empty texts and wrong model dimensions),
where the single call throws but the batch call does not. -/
theorem generateEmbeddingsBatch_refines (model : Embedder)
    (texts : List (List Char))
    (hne : ∀ t ∈ texts, (jsTrim t).length ≠ 0)
    (hdim : ∀ t ∈ texts, (model (t.take 2000)).length = embeddingDimension) :
    generateEmbeddingsBatch (some model) texts =
      .ok (texts.map (fun t => model (t.take 2000))) ∧
    ∀ i (h : i < texts.length),
      generateEmbedding (some model) (texts.get ⟨i, h⟩) =
        .ok (model ((texts.get ⟨i, h⟩).take 2000)) := by
  constructor
  · by_cases h0 : texts.length = 0
    · have hnil : texts = [] := List.length_eq_zero.mp h0
      subst hnil
      simp [generateEmbeddingsBatch]
    · simp only [generateEmbeddingsBatch, h0, if_false]
      congr 1
      have hblocks : ∀ l ∈ (texts.map (fun t => t.take 2000)).map model,
          l.length = embeddingDimension := by
        intro l hl
        obtain ⟨u, hu, rfl⟩ := List.mem_map.mp hl
        obtain ⟨t, ht, rfl⟩ := List.mem_map.mp hu
        exact hdim t ht
      apply List.ext_get
      · simp
      · intro i h1 h2
        have hi : i < ((texts.map (fun t => t.take 2000)).map model).length := by
          simpa using h2
        have hw := flatten_window embeddingDimension
          ((texts.map (fun t => t.take 2000)).map model) hblocks i hi
        simp only [List.get_eq_getElem, List.getElem_map, List.getElem_range]
          at hw ⊢
        simpa using hw
  · intro i h
    have hmem : texts.get ⟨i, h⟩ ∈ texts := List.get_mem _ _ _
    have hunf : generateEmbedding (some model) (texts.get ⟨i, h⟩) =
        if (jsTrim (texts.get ⟨i, h⟩)).length = 0 then
          .error "Text cannot be empty"
        else if (model ((texts.get ⟨i, h⟩).take 2000)).length ≠
            embeddingDimension then
          .error "Unexpected embedding dimension"
        else .ok (model ((texts.get ⟨i, h⟩).take 2000)) := rfl
    rw [hunf, if_neg (hne _ hmem), if_neg (fun hc => hc (hdim _ hmem))]

set_option maxRecDepth 10000 in
/-- Witness for the amended C7 on a two-text batch under
`constEmbedder`. -/
theorem generateEmbeddingsBatch_refines_witness :
    generateEmbeddingsBatch (some constEmbedder) [['a'], ['b', 'c']] =
      .ok [List.replicate embeddingDimension 0,
           List.replicate embeddingDimension 0] := by
  have h := (generateEmbeddingsBatch_refines constEmbedder [['a'], ['b', 'c']]
    (by decide) (fun t _ => rfl)).1
  exact h.trans rfl

/-! ## C5 — the snippet window anchor -/

set_option maxRecDepth 40000 in
/-- C5, counterexample: on `textC5` / `queryC5` the code anchors on
"apple" (the first *query token* that occurs, at position 107) and
emits a `...`-prefixed window, while the claim's earliest-position
anchor ("banana", position 0) would emit the whole text with no
ellipsis. -/
theorem truncateContent_anchor_counterexample :
    truncateContent textC5 queryC5 300 ≠ snippetSpec textC5 queryC5 300 ∧
    (truncateContent textC5 queryC5 300).take 3 = ['.', '.', '.'] ∧
    snippetSpec textC5 queryC5 300 = textC5 := by decide

/-- The `for`/`break` loop of `truncateContent` is `findSome?` over the
query tokens (defaulting to position 0). -/
theorem findTermPos_eq_findSome (lowerText : List Char) :
    ∀ terms : List (List Char),
      findTermPos lowerText terms =
        ((terms.findSome? (fun t => indexOfFrom t lowerText)).getD 0) := by
  intro terms
  induction terms with
  | nil => rfl
  | cons t ts ih =>
    simp only [findTermPos, List.findSome?_cons]
    cases h : indexOfFrom t lowerText with
    | some p => simp
    | none => simpa using ih

/-- C5 amended: the window is anchored at the `indexOf` position of the
**first query term in query-token order** that occurs in the text (not
at the earliest position of any term); the window starts 100 characters
before that anchor (clamped to 0), extends at most `maxLength`
characters from the window start, carries a `...` before it iff it did
not start at character 0 and after it iff it did not reach the end of
the text, falls back to the first `maxLength` characters when no term
occurs, and the assembled snippet is finally trimmed. -/
theorem truncateContent_amended (text query : List Char) (maxLength : Nat)
    (hne : text ≠ []) :
    truncateContent text query maxLength =
      jsTrim ((if 0 < anchorStart text query then ['.', '.', '.'] else []) ++
        (text.drop (anchorStart text query)).take
          (min text.length (anchorStart text query + maxLength) -
            anchorStart text query) ++
        (if min text.length (anchorStart text query + maxLength) < text.length
         then ['.', '.', '.'] else [])) ∧
    ((text.drop (anchorStart text query)).take
      (min text.length (anchorStart text query + maxLength) -
        anchorStart text query)).length ≤ maxLength := by
  constructor
  · have hempty : text.isEmpty = false := by
      cases text with
      | nil => exact absurd rfl hne
      | cons c cs => rfl
    simp only [truncateContent, hempty, Bool.false_eq_true, if_false,
      findTermPos_eq_findSome]
    have hanch : ((splitWs (query.map Char.toLower)).findSome?
        (fun t => indexOfFrom t (text.map Char.toLower))).getD 0 - 100 =
        anchorStart text query := rfl
    rw [hanch]
    by_cases hpre : 0 < anchorStart text query <;>
      by_cases hsuf : min text.length (anchorStart text query + maxLength) <
        text.length <;>
      simp [hpre, hsuf]
  · have h1 := List.length_take
      (min text.length (anchorStart text query + maxLength) -
        anchorStart text query)
      (text.drop (anchorStart text query))
    omega

/-- Witness for the amended C5: a query that occurs at position 0
yields the untrimmed, unellipsized head of the text. -/
theorem truncateContent_amended_witness :
    truncateContent ['h', 'i'] ['h', 'i'] 300 = ['h', 'i'] := by
  have h := (truncateContent_amended ['h', 'i'] ['h', 'i'] 300 (by decide)).1
  exact h.trans (by decide)

/-! ## C9 / C10 — the job queue invariants -/

theorem setJob_map_id (q : List QueueJob) (jid : Nat)
    (f : QueueJob → QueueJob) (hf : ∀ j, (f j).id = j.id) :
    (setJob q jid f).map (fun j => j.id) = q.map (fun j => j.id) := by
  unfold setJob
  rw [List.map_map]
  apply List.map_congr_left
  intro j _
  by_cases h : j.id = jid <;> simp [h, hf]

theorem mem_setJob {k : QueueJob} {q : List QueueJob} {jid : Nat}
    {f : QueueJob → QueueJob} (h : k ∈ setJob q jid f) :
    ∃ o ∈ q, k = if o.id = jid then f o else o := by
  obtain ⟨o, ho, rfl⟩ := List.mem_map.mp h
  exact ⟨o, ho, rfl⟩

/-- `activateFirstWaiting` re-establishes the invariant from any state
with distinct, bounded ids and no active job. -/
theorem activateFirstWaiting_inv (s : QueueState)
    (hnodup : (s.queue.map (fun j => j.id)).Nodup)
    (hle : ∀ j ∈ s.queue, j.id ≤ s.jobIdCounter)
    (hnoact : ∀ j ∈ s.queue, j.status ≠ .active) :
    QueueInv (activateFirstWaiting s) := by
  cases hfind : s.queue.find? (fun j => j.status == .waiting) with
  | none =>
    have heq : activateFirstWaiting s =
        { s with isProcessing := false, awaiting := none } := by
      unfold activateFirstWaiting
      rw [hfind]
    rw [heq]
    exact ⟨hnodup, hle, rfl, fun j hj hact => absurd hact (hnoact j hj)⟩
  | some w =>
    have heq : activateFirstWaiting s =
        { s with
          queue := setJob s.queue w.id (fun k =>
            { k with status := .active, progress := 10 })
          isProcessing := true
          awaiting := some w.id } := by
      unfold activateFirstWaiting
      rw [hfind]
    rw [heq]
    refine ⟨?_, ?_, rfl, ?_⟩
    · dsimp only
      rw [setJob_map_id s.queue w.id
        (fun k => { k with status := .active, progress := 10 })
        (fun j => rfl)]
      exact hnodup
    · intro j hj
      obtain ⟨o, ho, hcase⟩ := mem_setJob hj
      have hid : j.id = o.id := by
        by_cases h : o.id = w.id
        · rw [if_pos h] at hcase
          rw [hcase]
        · rw [if_neg h] at hcase
          rw [hcase]
      dsimp only
      rw [hid]
      exact hle o ho
    · intro j hj hactive
      obtain ⟨o, ho, hcase⟩ := mem_setJob hj
      by_cases h : o.id = w.id
      · rw [if_pos h] at hcase
        dsimp only
        rw [hcase]
        simp [h]
      · rw [if_neg h] at hcase
        rw [hcase] at hactive
        exact absurd hactive (hnoact o ho)

/-- A bare `processQueue()` call preserves the invariant facts. -/
theorem startQueue_inv (s : QueueState)
    (hnodup : (s.queue.map (fun j => j.id)).Nodup)
    (hle : ∀ j ∈ s.queue, j.id ≤ s.jobIdCounter)
    (hproc : s.isProcessing = s.awaiting.isSome)
    (hact : ∀ j ∈ s.queue, j.status = .active → s.awaiting = some j.id) :
    QueueInv (startQueue s) := by
  unfold startQueue
  by_cases hp : s.isProcessing
  · rw [if_pos hp]
    exact ⟨hnodup, hle, hproc, hact⟩
  · rw [if_neg hp]
    have hnone : s.awaiting = none := by
      cases hw : s.awaiting with
      | none => rfl
      | some a =>
        rw [hw] at hproc
        simp at hproc
        exact absurd hproc hp
    apply activateFirstWaiting_inv s hnodup hle
    intro j hj hactive
    have := hact j hj hactive
    rw [hnone] at this
    cases this

/-- Pushing a fresh `waiting` job and running the queue preserves the
invariant (the body of `addJob`). -/
theorem push_startQueue_inv (s : QueueState) (job : QueueJob)
    (hjid : job.id = s.jobIdCounter + 1) (hjst : job.status = .waiting)
    (hnodup : (s.queue.map (fun j => j.id)).Nodup)
    (hle : ∀ j ∈ s.queue, j.id ≤ s.jobIdCounter)
    (hproc : s.isProcessing = s.awaiting.isSome)
    (hact : ∀ j ∈ s.queue, j.status = .active → s.awaiting = some j.id) :
    QueueInv (startQueue
      { s with queue := s.queue ++ [job],
               jobIdCounter := s.jobIdCounter + 1 }) := by
  apply startQueue_inv
  · dsimp only
    simp only [List.map_append, List.map_cons, List.map_nil]
    rw [List.nodup_append]
    refine ⟨hnodup, by simp, ?_⟩
    intro a ha hb
    simp only [List.mem_singleton] at hb
    obtain ⟨j, hj, rfl⟩ := List.mem_map.mp ha
    have := hle j hj
    rw [hb, hjid] at *
    omega
  · intro j hj
    dsimp only at hj ⊢
    rcases List.mem_append.mp hj with hj | hj
    · have := hle j hj
      omega
    · simp only [List.mem_singleton] at hj
      rw [hj, hjid]
  · exact hproc
  · intro j hj hactive
    dsimp only at hj ⊢
    rcases List.mem_append.mp hj with hj | hj
    · exact hact j hj hactive
    · simp only [List.mem_singleton] at hj
      rw [hj, hjst] at hactive
      cases hactive

/-- Every event preserves the queue invariant. -/
theorem queueInv_applyEvent (e : QEvent) (s : QueueState)
    (h : QueueInv s) : QueueInv (applyEvent e s) := by
  obtain ⟨hnodup, hle, hproc, hact⟩ := h
  cases e with
  | add d c f =>
    exact push_startQueue_inv s
      { id := s.jobIdCounter + 1, documentId := d, caseId := c,
        fileName := f, status := JobStatus.waiting, progress := 0 }
      rfl rfl hnodup hle hproc hact
  | kick =>
    exact startQueue_inv s hnodup hle hproc hact
  | settle ok =>
    show QueueInv (resumeWorker ok s)
    cases hw : s.awaiting with
    | none =>
      have heq : resumeWorker ok s = s := by
        unfold resumeWorker
        rw [hw]
      rw [heq]
      exact ⟨hnodup, hle, hproc, hact⟩
    | some jid =>
      have heq : resumeWorker ok s = activateFirstWaiting
          { s with
            queue := setJob s.queue jid (fun j =>
              if ok then { j with status := .completed, progress := 100 }
              else { j with status := .failed })
            awaiting := none } := by
        unfold resumeWorker
        rw [hw]
      rw [heq]
      have hfid : ∀ j : QueueJob, ((fun j : QueueJob =>
          if ok then { j with status := JobStatus.completed, progress := 100 }
          else { j with status := JobStatus.failed }) j).id = j.id := by
        intro j
        by_cases h : ok <;> simp [h]
      apply activateFirstWaiting_inv
      · dsimp only
        rw [setJob_map_id _ _ _ hfid]
        exact hnodup
      · intro j hj
        dsimp only at hj ⊢
        obtain ⟨o, ho, hcase⟩ := mem_setJob hj
        have hid : j.id = o.id := by
          by_cases h : o.id = jid
          · rw [if_pos h] at hcase
            rw [hcase]
            exact hfid o
          · rw [if_neg h] at hcase
            rw [hcase]
        rw [hid]
        exact hle o ho
      · intro j hj hactive
        dsimp only at hj
        obtain ⟨o, ho, hcase⟩ := mem_setJob hj
        by_cases h : o.id = jid
        · rw [if_pos h] at hcase
          rw [hcase] at hactive
          revert hactive
          by_cases hok : ok <;> simp [hok]
        · rw [if_neg h] at hcase
          rw [hcase] at hactive
          have := hact o ho hactive
          rw [hw] at this
          injection this with h2
          exact absurd h2.symm h
  | clear =>
    show QueueInv (clearCompleted s)
    refine ⟨?_, ?_, hproc, ?_⟩
    · exact List.Nodup.sublist
        (List.Sublist.map _ (List.filter_sublist _)) hnodup
    · intro j hj
      exact hle j (List.mem_filter.mp hj).1
    · intro j hj hactive
      exact hact j (List.mem_filter.mp hj).1 hactive

/-- Every reachable state satisfies the invariant. -/
theorem reachable_queueInv (s : QueueState) (h : Reachable s) :
    QueueInv s := by
  induction h with
  | init =>
    exact ⟨by simp [initState], by simp [initState], rfl, by simp [initState]⟩
  | step e h ih => exact queueInv_applyEvent e _ ih

/-- Every event trace ends in a reachable state. -/
theorem reachable_runEvents (evs : List QEvent) :
    Reachable (runEvents evs) := by
  suffices h : ∀ s, Reachable s →
      Reachable (evs.foldl (fun s e => applyEvent e s) s) from
    h initState Reachable.init
  induction evs with
  | nil => intro s hs; exact hs
  | cons e evs ih => intro s hs; exact ih _ (Reachable.step e hs)

theorem length_le_one_of_nodup_of_const {l : List Nat} (hn : l.Nodup)
    (a : Nat) (hc : ∀ x ∈ l, x = a) : l.length ≤ 1 := by
  match l with
  | [] => simp
  | [x] => simp
  | x :: y :: t =>
    exfalso
    have hx := hc x (by simp)
    have hy := hc y (by simp)
    rw [List.nodup_cons] at hn
    exact hn.1 (by simp [hx, hy.symm])

/-- C9: in every state of the job queue reachable by any interleaving
of `addJob` calls and worker-loop steps, at most one job has status
`active` — no two document-processing runs execute concurrently. -/
theorem queue_at_most_one_active (s : QueueState) (h : Reachable s) :
    (getStats s).active ≤ 1 := by
  obtain ⟨hnodup, _, _, hact⟩ := reachable_queueInv s h
  by_cases hF : s.queue.filter (fun j => j.status == JobStatus.active) = []
  · simp [getStats, hF]
  · obtain ⟨a, ha⟩ := List.exists_mem_of_ne_nil _ hF
    have haq := List.mem_filter.mp ha
    have hawaits := hact a haq.1 (by simpa using haq.2)
    have hnodupF :
        ((s.queue.filter (fun j => j.status == JobStatus.active)).map
          (fun j => j.id)).Nodup :=
      List.Nodup.sublist (List.Sublist.map _ (List.filter_sublist _)) hnodup
    have hconst : ∀ x ∈ (s.queue.filter
        (fun j => j.status == JobStatus.active)).map (fun j => j.id),
        x = a.id := by
      intro x hx
      obtain ⟨b, hb, rfl⟩ := List.mem_map.mp hx
      have hb2 := List.mem_filter.mp hb
      have hbw := hact b hb2.1 (by simpa using hb2.2)
      rw [hawaits] at hbw
      injection hbw with h2
      exact h2.symm
    have := length_le_one_of_nodup_of_const hnodupF a.id hconst
    simpa [getStats] using this

/-- Witness for C9: after enqueuing two documents (the first already
active, the second waiting), at most one job is active. -/
theorem queue_at_most_one_active_witness :
    (getStats (runEvents [QEvent.add "d1" "c1" "f1",
      QEvent.add "d2" "c2" "f2"])).active ≤ 1 :=
  queue_at_most_one_active _ (reachable_runEvents _)

/-- Any job list is partitioned by the four statuses. -/
theorem statuses_partition (q : List QueueJob) :
    (q.filter (fun j => j.status == JobStatus.waiting)).length +
    (q.filter (fun j => j.status == JobStatus.active)).length +
    (q.filter (fun j => j.status == JobStatus.completed)).length +
    (q.filter (fun j => j.status == JobStatus.failed)).length = q.length := by
  induction q with
  | nil => rfl
  | cons j q ih =>
    cases hs : j.status <;> simp [List.filter_cons, hs] <;> omega

/-- C10: in every reachable queue state each job's status is one of
`waiting`, `active`, `completed`, `failed` (the `status` field's type
has exactly these four values), so the four `getStats` counts always
sum to its `total` (the queue length). -/
theorem getStats_partition (s : QueueState) (_h : Reachable s) :
    (getStats s).waiting + (getStats s).active + (getStats s).completed +
      (getStats s).failed = (getStats s).total := by
  simpa [getStats] using statuses_partition s.queue

/-- Witness for C10 after an add, a settle and a clear. -/
theorem getStats_partition_witness :
    (getStats (runEvents [QEvent.add "d1" "c1" "f1", QEvent.settle true,
      QEvent.clear])).waiting +
    (getStats (runEvents [QEvent.add "d1" "c1" "f1", QEvent.settle true,
      QEvent.clear])).active +
    (getStats (runEvents [QEvent.add "d1" "c1" "f1", QEvent.settle true,
      QEvent.clear])).completed +
    (getStats (runEvents [QEvent.add "d1" "c1" "f1", QEvent.settle true,
      QEvent.clear])).failed =
    (getStats (runEvents [QEvent.add "d1" "c1" "f1", QEvent.settle true,
      QEvent.clear])).total :=
  getStats_partition _ (reachable_runEvents _)

/-! ## Sorting lemmas for the search rankings

`sortDesc` is the determinization of `ORDER BY key DESC`: these lemmas
show it is a permutation, that it sorts, that it is stable under
key-equal rewrites, commutes with `map`, leaves a dominated sorted
suffix in place, and is unique on key-distinct lists. -/

theorem insertDesc_perm {α : Type} (key : α → ℚ) (x : α) (l : List α) :
    (insertDesc key x l).Perm (x :: l) := by
  induction l with
  | nil => exact List.Perm.refl _
  | cons y ys ih =>
    unfold insertDesc
    by_cases h : key y ≤ key x
    · rw [if_pos h]
    · rw [if_neg h]
      exact (List.Perm.cons y ih).trans (List.Perm.swap x y ys)

theorem sortDesc_perm {α : Type} (key : α → ℚ) (l : List α) :
    (sortDesc key l).Perm l := by
  induction l with
  | nil => exact List.Perm.refl _
  | cons x xs ih =>
    exact (insertDesc_perm key x (sortDesc key xs)).trans (List.Perm.cons x ih)

theorem insertDesc_pairwise {α : Type} (key : α → ℚ) (x : α) (l : List α)
    (h : l.Pairwise (fun a b => key b ≤ key a)) :
    (insertDesc key x l).Pairwise (fun a b => key b ≤ key a) := by
  induction l with
  | nil => simp [insertDesc]
  | cons y ys ih =>
    rw [List.pairwise_cons] at h
    unfold insertDesc
    by_cases hxy : key y ≤ key x
    · rw [if_pos hxy]
      refine List.Pairwise.cons ?_ (List.Pairwise.cons h.1 h.2)
      intro b hb
      rcases List.mem_cons.mp hb with rfl | hb
      · exact hxy
      · exact le_trans (h.1 b hb) hxy
    · rw [if_neg hxy]
      refine List.Pairwise.cons ?_ (ih h.2)
      intro b hb
      have hmem := (insertDesc_perm key x ys).mem_iff.mp hb
      rcases List.mem_cons.mp hmem with rfl | hb2
      · exact le_of_not_le hxy
      · exact h.1 b hb2

theorem sortDesc_pairwise {α : Type} (key : α → ℚ) (l : List α) :
    (sortDesc key l).Pairwise (fun a b => key b ≤ key a) := by
  induction l with
  | nil => simp [sortDesc]
  | cons x xs ih => exact insertDesc_pairwise key x _ ih

theorem insertDesc_congr {α : Type} (k₁ k₂ : α → ℚ) (x : α) (l : List α)
    (hx : k₁ x = k₂ x) (h : ∀ y ∈ l, k₁ y = k₂ y) :
    insertDesc k₁ x l = insertDesc k₂ x l := by
  induction l with
  | nil => rfl
  | cons y ys ih =>
    unfold insertDesc
    rw [hx, h y (List.mem_cons_self y ys)]
    by_cases hc : k₂ y ≤ k₂ x
    · rw [if_pos hc, if_pos hc]
    · rw [if_neg hc, if_neg hc, ih (fun z hz => h z (List.mem_cons_of_mem _ hz))]

theorem sortDesc_congr {α : Type} (k₁ k₂ : α → ℚ) (l : List α)
    (h : ∀ y ∈ l, k₁ y = k₂ y) :
    sortDesc k₁ l = sortDesc k₂ l := by
  induction l with
  | nil => rfl
  | cons x xs ih =>
    unfold sortDesc
    rw [ih (fun z hz => h z (List.mem_cons_of_mem _ hz))]
    apply insertDesc_congr _ _ _ _ (h x (List.mem_cons_self x xs))
    intro y hy
    exact h y (List.mem_cons_of_mem _
      ((sortDesc_perm k₂ xs).mem_iff.mp hy))

theorem insertDesc_map {α β : Type} (key : β → ℚ) (f : α → β) (x : α)
    (l : List α) :
    insertDesc key (f x) (l.map f) = (insertDesc (fun a => key (f a)) x l).map f := by
  induction l with
  | nil => rfl
  | cons y ys ih =>
    simp only [List.map_cons]
    unfold insertDesc
    by_cases h : key (f y) ≤ key (f x)
    · rw [if_pos h, if_pos h]
      simp
    · rw [if_neg h, if_neg h]
      simp [ih]

theorem sortDesc_map {α β : Type} (key : β → ℚ) (f : α → β) (l : List α) :
    sortDesc key (l.map f) = (sortDesc (fun a => key (f a)) l).map f := by
  induction l with
  | nil => rfl
  | cons x xs ih =>
    simp only [List.map_cons]
    unfold sortDesc
    rw [ih, insertDesc_map]

theorem sortDesc_of_pairwise {α : Type} (key : α → ℚ) (l : List α)
    (h : l.Pairwise (fun a b => key b ≤ key a)) :
    sortDesc key l = l := by
  induction l with
  | nil => rfl
  | cons x xs ih =>
    rw [List.pairwise_cons] at h
    unfold sortDesc
    rw [ih h.2]
    cases xs with
    | nil => rfl
    | cons y ys =>
      unfold insertDesc
      rw [if_pos (h.1 y (List.mem_cons_self y ys))]

theorem insertDesc_append {α : Type} (key : α → ℚ) (x : α) (A B : List α)
    (hB : ∀ b ∈ B, key b ≤ key x) :
    insertDesc key x (A ++ B) = insertDesc key x A ++ B := by
  induction A with
  | nil =>
    cases B with
    | nil => rfl
    | cons b bs =>
      simp only [List.nil_append]
      unfold insertDesc
      rw [if_pos (hB b (List.mem_cons_self b bs))]
      rfl
  | cons a as ih =>
    simp only [List.cons_append]
    unfold insertDesc
    by_cases h : key a ≤ key x
    · rw [if_pos h, if_pos h]
      rfl
    · rw [if_neg h, if_neg h, ih]
      rfl

theorem sortDesc_append {α : Type} (key : α → ℚ) (A B : List α)
    (hdom : ∀ b ∈ B, ∀ a ∈ A, key b ≤ key a)
    (hB : B.Pairwise (fun a b => key b ≤ key a)) :
    sortDesc key (A ++ B) = sortDesc key A ++ B := by
  induction A with
  | nil =>
    simp only [List.nil_append]
    exact sortDesc_of_pairwise key B hB
  | cons a as ih =>
    simp only [List.cons_append]
    unfold sortDesc
    rw [ih (fun b hb a2 ha2 => hdom b hb a2 (List.mem_cons_of_mem _ ha2))]
    exact insertDesc_append key a _ B
      (fun b hb => hdom b hb a (List.mem_cons_self a as))

/-- A sort of any permutation of a key-distinct list is strictly
descending. -/
theorem sortDesc_strict {α : Type} (k : α → ℚ) {l l₂ : List α}
    (hp : l.Perm l₂) (hd : l₂.Pairwise (fun a b => k a ≠ k b)) :
    (sortDesc k l).Pairwise (fun a b => k b < k a) := by
  have hne : (sortDesc k l).Pairwise (fun a b => k a ≠ k b) :=
    (List.Perm.pairwise_iff (fun h => Ne.symm h)
      ((sortDesc_perm k l).trans hp)).mpr hd
  exact List.Pairwise.imp (fun h => lt_of_le_of_ne h.1 (Ne.symm h.2))
    ((sortDesc_pairwise k l).and hne)

/-- On key-distinct lists the descending sort is unique: permuted
inputs sort to the same output. -/
theorem sortDesc_perm_eq {α : Type} (k : α → ℚ) {l₁ l₂ : List α}
    (hp : l₁.Perm l₂) (hd : l₂.Pairwise (fun a b => k a ≠ k b)) :
    sortDesc k l₁ = sortDesc k l₂ := by
  haveI : IsAntisymm α (fun a b => k b < k a) :=
    ⟨fun a b h1 h2 => absurd (lt_trans h1 h2) (lt_irrefl _)⟩
  exact List.eq_of_perm_of_sorted
    ((sortDesc_perm k l₁).trans (hp.trans (sortDesc_perm k l₂).symm))
    (sortDesc_strict k hp hd)
    (sortDesc_strict k (List.Perm.refl l₂) hd)

theorem pairwise_of_all {α : Type} {R : α → α → Prop} (h : ∀ a b, R a b) :
    ∀ l : List α, l.Pairwise R
  | [] => List.Pairwise.nil
  | x :: xs => List.Pairwise.cons (fun b _ => h x b) (pairwise_of_all h xs)

/-- `c.id` is the table's primary key: distinct `id`s identify rows. -/
theorem row_id_inj {rows : List Row}
    (hn : (rows.map (fun r => r.id)).Nodup)
    {a b : Row} (ha : a ∈ rows) (hb : b ∈ rows) (h : a.id = b.id) :
    a = b :=
  List.inj_on_of_nodup_map hn ha hb h

/-! ## C3 — hybrid search is the weighted outer join -/

/-- A table row joins iff it is a lexical or a semantic candidate. -/
theorem mem_hybridJoin_iff (pg : Pg) (query : List Char) (qvec : List ℚ)
    (hnodup : (pg.rows.map (fun r => r.id)).Nodup)
    (r : Row) (hr : r ∈ pg.rows) :
    (∃ j ∈ hybridJoin pg query qvec, j.row = r) ↔
      (pg.tsMatch query r ∨ r.embedding.isSome) := by
  unfold hybridJoin fullOuterJoin
  constructor
  · rintro ⟨j, hj, rfl⟩
    rcases List.mem_append.mp hj with hj | hj
    · obtain ⟨f, hf, hfe⟩ := List.mem_map.mp hj
      have hrow : j.row = f := by rw [← hfe]
      rw [hrow]
      exact Or.inl (List.mem_filter.mp hf).2
    · obtain ⟨sr, hs, hse⟩ := List.mem_map.mp hj
      have hrow : j.row = sr := by rw [← hse]
      rw [hrow]
      have hs2 := List.mem_filter.mp hs
      have hs3 := List.mem_filter.mp hs2.1
      exact Or.inr hs3.2
  · intro hor
    by_cases hlex : pg.tsMatch query r
    · exact ⟨_, List.mem_append.mpr (Or.inl (List.mem_map.mpr
        ⟨r, List.mem_filter.mpr ⟨hr, hlex⟩, rfl⟩)), rfl⟩
    · have hsem : r.embedding.isSome := by
        rcases hor with h | h
        · exact absurd h hlex
        · exact h
      have hnotany :
          ¬ (pg.rows.filter (pg.tsMatch query)).any (fun f => f.id = r.id) := by
        intro hany
        simp only [List.any_eq_true, decide_eq_true_eq] at hany
        obtain ⟨f, hf, hfid⟩ := hany
        have hf2 := List.mem_filter.mp hf
        have hfr : f = r := row_id_inj hnodup hf2.1 hr hfid
        exact hlex (hfr ▸ hf2.2)
      exact ⟨_, List.mem_append.mpr (Or.inr (List.mem_map.mpr
        ⟨r, List.mem_filter.mpr ⟨List.mem_filter.mpr ⟨hr, hsem⟩,
          by simpa using hnotany⟩, rfl⟩)), rfl⟩

/-- Each joined row records exactly the scores of the methods that
returned it, and `none` for the other method. -/
theorem hybridJoin_score (pg : Pg) (query : List Char) (qvec : List ℚ)
    (hnodup : (pg.rows.map (fun r => r.id)).Nodup) :
    ∀ j ∈ hybridJoin pg query qvec,
      j.row ∈ pg.rows ∧
      j.ftScore = (if pg.tsMatch query j.row
        then some (pg.tsRank query j.row) else none) ∧
      j.semScore = (if (j.row.embedding).isSome
        then some (semScoreOf pg qvec j.row) else none) := by
  intro j hj
  unfold hybridJoin fullOuterJoin at hj
  rcases List.mem_append.mp hj with hj | hj
  · obtain ⟨f, hf, rfl⟩ := List.mem_map.mp hj
    have hf2 := List.mem_filter.mp hf
    refine ⟨hf2.1, by simp [hf2.2], ?_⟩
    by_cases hsem : f.embedding.isSome
    · have hany :
          (pg.rows.filter (fun r => r.embedding.isSome)).any
            (fun s => s.id = f.id) :=
        List.any_eq_true.mpr
          ⟨f, List.mem_filter.mpr ⟨hf2.1, hsem⟩, by simp⟩
      simp [hany, hsem]
    · have hnotany :
          ¬ (pg.rows.filter (fun r => r.embedding.isSome)).any
            (fun s => s.id = f.id) := by
        intro hany
        simp only [List.any_eq_true, decide_eq_true_eq] at hany
        obtain ⟨sc, hs, hsid⟩ := hany
        have hs2 := List.mem_filter.mp hs
        have : sc = f := row_id_inj hnodup hs2.1 hf2.1 hsid
        exact hsem (this ▸ hs2.2)
      simp [hnotany, hsem]
  · obtain ⟨sr, hs, rfl⟩ := List.mem_map.mp hj
    have hs2 := List.mem_filter.mp hs
    have hs3 := List.mem_filter.mp hs2.1
    have hnot : ¬ pg.tsMatch query sr = true := by
      intro hmatch
      have hany :
          (pg.rows.filter (pg.tsMatch query)).any (fun f => f.id = sr.id) :=
        List.any_eq_true.mpr
          ⟨sr, List.mem_filter.mpr ⟨hs3.1, hmatch⟩, by simp⟩
      have hpred := hs2.2
      simp only [decide_eq_true_eq] at hpred
      exact hpred hany
    exact ⟨hs3.1, by simp [hnot], by simp [hs3.2]⟩

/-- C3: for every query, limit and weight pair, hybrid search scores
exactly the outer join of the lexical and the semantic candidate sets
keyed by page-content identity (`c.id`): a table row joins iff at
least one method returns it, a row missing from one method contributes
`0` for that method's score, every joined row's final score is
`lexicalWeight·lexicalScore + semanticWeight·semanticScore`, and the
returned list is that scored join sorted by final score descending and
truncated to the limit. -/
theorem hybridSearch_outer_join (pg : Pg) (embedder : Option Embedder)
    (query : List Char) (limit : Nat) (w1 w2 : ℚ) (qvec : List ℚ)
    (hq : generateEmbedding embedder query = .ok qvec)
    (hnodup : (pg.rows.map (fun r => r.id)).Nodup) :
    hybridSearch pg embedder query limit w1 w2 =
      .ok (((sortDesc (hybridScore w1 w2) (hybridJoin pg query qvec)).take
        limit).map (mkHybridRes query w1 w2)) ∧
    (∀ r ∈ pg.rows,
      (∃ j ∈ hybridJoin pg query qvec, j.row = r) ↔
        (pg.tsMatch query r ∨ r.embedding.isSome)) ∧
    (∀ j ∈ hybridJoin pg query qvec,
      j.row ∈ pg.rows ∧
      hybridScore w1 w2 j =
        w1 * (if pg.tsMatch query j.row then pg.tsRank query j.row else 0) +
        w2 * (if (j.row.embedding).isSome then semScoreOf pg qvec j.row
          else 0)) ∧
    (sortDesc (hybridScore w1 w2) (hybridJoin pg query qvec)).Perm
      (hybridJoin pg query qvec) ∧
    (sortDesc (hybridScore w1 w2) (hybridJoin pg query qvec)).Pairwise
      (fun a b => hybridScore w1 w2 b ≤ hybridScore w1 w2 a) := by
  refine ⟨?_, fun r hr => mem_hybridJoin_iff pg query qvec hnodup r hr, ?_,
    sortDesc_perm _ _, sortDesc_pairwise _ _⟩
  · unfold hybridSearch
    rw [hq]
    rfl
  · intro j hj
    obtain ⟨hrow, hft, hsem⟩ := hybridJoin_score pg query qvec hnodup j hj
    refine ⟨hrow, ?_⟩
    unfold hybridScore
    rw [hft, hsem]
    by_cases h1 : pg.tsMatch query j.row <;>
      by_cases h2 : (j.row.embedding).isSome <;>
      simp [h1, h2] <;> ring

set_option maxRecDepth 10000 in
/-- Witness for C3 at `pgC3`: the semantic-only row `rowSem` is in the
outer join even though it matches no lexical query. -/
theorem hybridSearch_outer_join_witness :
    ∃ j ∈ hybridJoin pgC3 ['q'] (List.replicate embeddingDimension 0),
      j.row = rowSem := by
  have h := hybridSearch_outer_join pgC3 (some constEmbedder) ['q'] 10
    (1 / 2) (1 / 2) (List.replicate embeddingDimension 0) rfl (by decide)
  exact (h.2.1 rowSem (by decide)).mpr (Or.inr (by decide))

/-- The outer join is its left block followed by its right-only
block. -/
theorem hybridJoin_decomp (pg : Pg) (query : List Char) (qvec : List ℚ) :
    hybridJoin pg query qvec =
      lexJoined pg query qvec ++ semOnlyJoined pg query qvec := rfl

/-- Two sorted-descending permutations of a key-distinct list are
equal. -/
theorem sorted_desc_unique {α : Type} (k : α → ℚ) {l₁ l₂ : List α}
    (hp : l₁.Perm l₂)
    (h₁ : l₁.Pairwise (fun a b => k b ≤ k a))
    (h₂ : l₂.Pairwise (fun a b => k b ≤ k a))
    (hd : l₂.Pairwise (fun a b => k a ≠ k b)) : l₁ = l₂ := by
  haveI : IsAntisymm α (fun a b => k b < k a) :=
    ⟨fun a b x y => absurd (lt_trans x y) (lt_irrefl _)⟩
  have hd₁ : l₁.Pairwise (fun a b => k a ≠ k b) :=
    (List.Perm.pairwise_iff (fun h => Ne.symm h) hp).mpr hd
  exact List.eq_of_perm_of_sorted hp
    (List.Pairwise.imp (fun h => lt_of_le_of_ne h.1 (Ne.symm h.2))
      (h₁.and hd₁))
    (List.Pairwise.imp (fun h => lt_of_le_of_ne h.1 (Ne.symm h.2))
      (h₂.and hd))

theorem pairwiseOfMem {α : Type} {R : α → α → Prop} :
    ∀ l : List α, (∀ a ∈ l, ∀ b ∈ l, R a b) → l.Pairwise R
  | [], _ => List.Pairwise.nil
  | x :: xs, h =>
    List.Pairwise.cons (fun b hb => h x (List.mem_cons_self x xs) b
        (List.mem_cons_of_mem x hb))
      (pairwiseOfMem xs (fun a ha b hb =>
        h a (List.mem_cons_of_mem x ha) b (List.mem_cons_of_mem x hb)))

/-- With weights `(1, 0)` the hybrid ranking is the lexical ranking
followed by zero-score padding: the first `|lexical candidates|`
results coincide (up to the `matchType` tag) with the lexical-only
results, and everything after them scores `0`. -/
theorem hybrid_lexical_head (pg : Pg) (embedder : Option Embedder)
    (query : List Char) (limit : Nat) (qvec : List ℚ)
    (hq : generateEmbedding embedder query = .ok qvec)
    (hpos : ∀ r ∈ pg.rows, 0 ≤ pg.tsRank query r) :
    ∃ res, hybridSearch pg embedder query limit 1 0 = .ok res ∧
      (res.take (pg.rows.filter (pg.tsMatch query)).length).map resData =
        (fullTextSearch pg query limit).map resData ∧
      ∀ r ∈ res.drop (pg.rows.filter (pg.tsMatch query)).length,
        r.score = 0 := by
  have hka : ∀ r : Row, hybridScore 1 0
      ({ row := r, ftScore := some (pg.tsRank query r),
         semScore :=
           if (pg.rows.filter (fun r2 => r2.embedding.isSome)).any
               (fun s2 => s2.id = r.id) then
             some (semScoreOf pg qvec r)
           else none } : JoinedRow) = pg.tsRank query r := by
    intro r
    simp [hybridScore]
  have hkb : ∀ b ∈ semOnlyJoined pg query qvec, hybridScore 1 0 b = 0 := by
    intro b hb
    obtain ⟨srow, hs, rfl⟩ := List.mem_map.mp hb
    simp [hybridScore]
  have hsplit : sortDesc (hybridScore 1 0) (hybridJoin pg query qvec) =
      sortDesc (hybridScore 1 0) (lexJoined pg query qvec) ++
        semOnlyJoined pg query qvec := by
    rw [hybridJoin_decomp]
    apply sortDesc_append
    · intro b hb a ha
      rw [hkb b hb]
      obtain ⟨r, hr, rfl⟩ := List.mem_map.mp ha
      rw [hka r]
      exact hpos r (List.mem_filter.mp hr).1
    · apply pairwiseOfMem
      intro a ha b hb
      rw [hkb a ha, hkb b hb]
  have hmapA : sortDesc (hybridScore 1 0) (lexJoined pg query qvec) =
      (sortDesc (fun r => pg.tsRank query r)
        (pg.rows.filter (pg.tsMatch query))).map (fun r =>
          ({ row := r, ftScore := some (pg.tsRank query r),
             semScore :=
               if (pg.rows.filter (fun r2 => r2.embedding.isSome)).any
                   (fun s2 => s2.id = r.id) then
                 some (semScoreOf pg qvec r)
               else none } : JoinedRow)) := by
    unfold lexJoined
    rw [sortDesc_map]
    congr 1
    apply sortDesc_congr
    intro y _
    exact hka y
  have hlenA : (sortDesc (fun r => pg.tsRank query r)
      (pg.rows.filter (pg.tsMatch query))).length =
      (pg.rows.filter (pg.tsMatch query)).length :=
    (sortDesc_perm _ _).length_eq
  refine ⟨((sortDesc (hybridScore 1 0) (hybridJoin pg query qvec)).take
    limit).map (mkHybridRes query 1 0), ?_, ?_, ?_⟩
  · unfold hybridSearch
    rw [hq]
    rfl
  · rw [hsplit, hmapA, ← List.map_take, List.take_take,
      List.take_append_of_le_length
        (by rw [List.length_map, hlenA]; exact Nat.min_le_left _ _)]
    have hft : fullTextSearch pg query limit =
        ((sortDesc (fun r => pg.tsRank query r)
          (pg.rows.filter (pg.tsMatch query))).take limit).map
          (mkFullTextRes pg query) := rfl
    have htk : (sortDesc (fun r => pg.tsRank query r)
        (pg.rows.filter (pg.tsMatch query))).take limit =
        (sortDesc (fun r => pg.tsRank query r)
          (pg.rows.filter (pg.tsMatch query))).take
          (min (pg.rows.filter (pg.tsMatch query)).length limit) := by
      apply List.take_eq_take.mpr
      rw [hlenA]
      omega
    rw [hft, htk, ← List.map_take]
    rw [List.map_map, List.map_map, List.map_map]
    apply List.map_congr_left
    intro x _
    simp [resData, mkHybridRes, mkFullTextRes, hybridScore]
  · intro r hr
    rw [hsplit, ← List.map_drop] at hr
    have hdropped : ((sortDesc (hybridScore 1 0) (lexJoined pg query qvec) ++
        semOnlyJoined pg query qvec).take limit).drop
          (pg.rows.filter (pg.tsMatch query)).length =
        ((sortDesc (hybridScore 1 0) (lexJoined pg query qvec) ++
          semOnlyJoined pg query qvec).drop
            (pg.rows.filter (pg.tsMatch query)).length).take
          (limit - (pg.rows.filter (pg.tsMatch query)).length) := by
      rw [List.drop_take]
    rw [hdropped] at hr
    have hdl : (sortDesc (hybridScore 1 0) (lexJoined pg query qvec) ++
        semOnlyJoined pg query qvec).drop
          (pg.rows.filter (pg.tsMatch query)).length =
        semOnlyJoined pg query qvec := by
      have hlen2 : (sortDesc (hybridScore 1 0)
          (lexJoined pg query qvec)).length =
          (pg.rows.filter (pg.tsMatch query)).length := by
        rw [(sortDesc_perm _ _).length_eq]
        unfold lexJoined
        rw [List.length_map]
      rw [← hlen2, List.drop_left]
    rw [hdl] at hr
    obtain ⟨b, hb, rfl⟩ := List.mem_map.mp hr
    have hb2 : b ∈ semOnlyJoined pg query qvec :=
      List.mem_of_mem_take hb
    have := hkb b hb2
    simpa [mkHybridRes] using this

/-- With weights `(0, 1)`, provided every lexical candidate also has an
embedding and semantic scores are pairwise distinct, the hybrid result
reproduces the semantic-only result exactly (up to the `matchType`
tag). -/
theorem hybrid_semantic_equal (pg : Pg) (embedder : Option Embedder)
    (query : List Char) (limit : Nat) (qvec : List ℚ)
    (hq : generateEmbedding embedder query = .ok qvec)
    (hnodup : (pg.rows.map (fun r => r.id)).Nodup)
    (hsub : ∀ r ∈ pg.rows, pg.tsMatch query r → r.embedding.isSome)
    (hdist : (pg.rows.filter (fun r => r.embedding.isSome)).Pairwise
      (fun a b => semScoreOf pg qvec a ≠ semScoreOf pg qvec b)) :
    ∃ res res2, hybridSearch pg embedder query limit 0 1 = .ok res ∧
      semanticSearch pg embedder query limit = .ok res2 ∧
      res.map resData = res2.map resData := by
  have hisSome : ∀ j ∈ hybridJoin pg query qvec, (j.row.embedding).isSome := by
    intro j hj
    rw [hybridJoin_decomp] at hj
    rcases List.mem_append.mp hj with hj | hj
    · obtain ⟨r, hr, rfl⟩ := List.mem_map.mp hj
      have hr2 := List.mem_filter.mp hr
      exact hsub r hr2.1 hr2.2
    · obtain ⟨r, hr, rfl⟩ := List.mem_map.mp hj
      have hr2 := List.mem_filter.mp hr
      exact (List.mem_filter.mp hr2.1).2
  have hscore : ∀ j ∈ hybridJoin pg query qvec,
      hybridScore 0 1 j = semScoreOf pg qvec j.row := by
    intro j hj
    obtain ⟨_, _, hsem⟩ := hybridJoin_score pg query qvec hnodup j hj
    have h1 := hisSome j hj
    simp [hybridScore, hsem, h1]
  have hsortJ : sortDesc (hybridScore 0 1) (hybridJoin pg query qvec) =
      sortDesc (fun j => semScoreOf pg qvec j.row)
        (hybridJoin pg query qvec) :=
    sortDesc_congr _ _ _ hscore
  have hmaprow : (hybridJoin pg query qvec).map (fun j => j.row) =
      pg.rows.filter (pg.tsMatch query) ++
        ((pg.rows.filter (fun r => r.embedding.isSome)).filter (fun s =>
          ¬ (pg.rows.filter (pg.tsMatch query)).any
            (fun f => f.id = s.id))) := by
    rw [hybridJoin_decomp, List.map_append]
    congr 1
    · unfold lexJoined
      rw [List.map_map]
      exact (List.map_congr_left (fun x _ => rfl)).trans (List.map_id _)
    · unfold semOnlyJoined
      rw [List.map_map]
      exact (List.map_congr_left (fun x _ => rfl)).trans (List.map_id _)
  have hperm : ((hybridJoin pg query qvec).map (fun j => j.row)).Perm
      (pg.rows.filter (fun r => r.embedding.isSome)) := by
    rw [hmaprow]
    have hL : pg.rows.filter (pg.tsMatch query) =
        (pg.rows.filter (fun r => r.embedding.isSome)).filter
          (fun r => pg.tsMatch query r) := by
      rw [List.filter_filter]
      apply List.filter_congr
      intro x hx
      by_cases h : pg.tsMatch query x
      · simp [h, hsub x hx h]
      · simp [h]
    have hS2 : ((pg.rows.filter (fun r => r.embedding.isSome)).filter
        (fun s => ¬ (pg.rows.filter (pg.tsMatch query)).any
          (fun f => f.id = s.id))) =
        (pg.rows.filter (fun r => r.embedding.isSome)).filter
          (fun s => !(pg.tsMatch query s)) := by
      apply List.filter_congr
      intro x hx
      have hx2 := List.mem_filter.mp hx
      by_cases h : pg.tsMatch query x
      · have hany : (pg.rows.filter (pg.tsMatch query)).any
            (fun f => f.id = x.id) :=
          List.any_eq_true.mpr ⟨x, List.mem_filter.mpr ⟨hx2.1, h⟩, by simp⟩
        simp [h, hany]
      · have hnotany : ¬ (pg.rows.filter (pg.tsMatch query)).any
            (fun f => f.id = x.id) := by
          intro hany
          simp only [List.any_eq_true, decide_eq_true_eq] at hany
          obtain ⟨f, hf, hfid⟩ := hany
          have hf2 := List.mem_filter.mp hf
          have : f = x := row_id_inj hnodup hf2.1 hx2.1 hfid
          exact h (this ▸ hf2.2)
        simp [h, hnotany]
    rw [hS2, hL]
    exact List.filter_append_perm _ _
  have hM : (sortDesc (hybridScore 0 1) (hybridJoin pg query qvec)).map
      (fun j => j.row) =
      sortDesc (fun r => semScoreOf pg qvec r)
        (pg.rows.filter (fun r => r.embedding.isSome)) := by
    rw [hsortJ, ← sortDesc_map]
    exact sortDesc_perm_eq _ hperm hdist
  have hsem_sort : sortDesc (fun r =>
      -(pg.vecDist (r.embedding.getD []) qvec))
      (pg.rows.filter (fun r => r.embedding.isSome)) =
      sortDesc (fun r => semScoreOf pg qvec r)
        (pg.rows.filter (fun r => r.embedding.isSome)) := by
    apply sorted_desc_unique (fun r => semScoreOf pg qvec r)
    · exact (sortDesc_perm _ _).trans (sortDesc_perm _ _).symm
    · exact List.Pairwise.imp
        (fun h => by simp only [semScoreOf]; linarith)
        (sortDesc_pairwise _ _)
    · exact sortDesc_pairwise _ _
    · exact (List.Perm.pairwise_iff (fun h => Ne.symm h)
        (sortDesc_perm _ _)).mpr hdist
  refine ⟨((sortDesc (hybridScore 0 1) (hybridJoin pg query qvec)).take
      limit).map (mkHybridRes query 0 1),
    ((sortDesc (fun r => -(pg.vecDist (r.embedding.getD []) qvec))
      (pg.rows.filter (fun r => r.embedding.isSome))).take limit).map
      (mkSemanticRes pg query qvec), ?_, ?_, ?_⟩
  · unfold hybridSearch
    rw [hq]
    rfl
  · unfold semanticSearch
    rw [hq]
    rfl
  · have hpt : ∀ j ∈ (sortDesc (hybridScore 0 1)
        (hybridJoin pg query qvec)).take limit,
        resData (mkHybridRes query 0 1 j) =
          ((fun r => resData (mkSemanticRes pg query qvec r)) ∘
            (fun j => j.row)) j := by
      intro j hj
      have hjJ : j ∈ hybridJoin pg query qvec :=
        (sortDesc_perm _ _).mem_iff.mp (List.mem_of_mem_take hj)
      simp [resData, mkHybridRes, mkSemanticRes, hscore j hjJ]
    have h1 : (((sortDesc (hybridScore 0 1)
        (hybridJoin pg query qvec)).take limit).map
          (mkHybridRes query 0 1)).map resData =
        (((sortDesc (hybridScore 0 1) (hybridJoin pg query qvec)).take
          limit).map (fun j => j.row)).map
          (fun r => resData (mkSemanticRes pg query qvec r)) := by
      rw [List.map_map, List.map_map]
      exact List.map_congr_left hpt
    rw [h1, List.map_take, hM, ← hsem_sort, List.map_map]
    rfl

set_option maxRecDepth 10000 in
/-- C4, counterexample: on `pgC4` (one embedded row, no lexical match)
lexical-only search returns nothing while hybrid search with weights
`(1, 0)` returns that row, with final score `0` — the two ranking
orders are not identical.  Moreover `SearchController` coerces an
explicit weight of `0` to the default `0.5` (`ftWeight || 0.5`), so the
`(1, 0)` and `(0, 1)` configurations cannot even be requested through
the REST layer. -/
theorem hybrid_weights_counterexample :
    fullTextSearch pgC4 ['q'] 10 = [] ∧
    (∃ r, hybridSearch pgC4 (some constEmbedder) ['q'] 10 1 0 =
        .ok [r] ∧ r.score = 0 ∧ r.documentId = "d2") ∧
    controllerWeight (some 0) = 1 / 2 := by
  refine ⟨rfl,
    ⟨mkHybridRes ['q'] 1 0
      { row := rowSem, ftScore := none,
        semScore := some (semScoreOf pgC4
          (List.replicate embeddingDimension 0) rowSem) }, rfl, ?_, rfl⟩,
    ?_⟩
  · simp [mkHybridRes, hybridScore]
  · simp [controllerWeight]

/-- C4 amended: with weights `(1, 0)` the hybrid result is the
lexical-only result (up to the `matchType` tag) followed by zero-score
padding drawn from the semantic-only rows, so the two orders agree on
the first `|lexical candidates|` positions but not beyond; with weights
`(0, 1)` the hybrid result reproduces the semantic-only ranking exactly
(up to the tag) provided every lexically-matching row has an embedding
and semantic scores are pairwise distinct — otherwise unembedded
lexical rows enter at score `0` and can perturb the list.  The REST
controller additionally replaces a weight of `0` by the default `0.5`,
so neither configuration is reachable with a literal `0` through it. -/
theorem hybrid_weight_degeneration (pg : Pg) (embedder : Option Embedder)
    (query : List Char) (limit : Nat) (qvec : List ℚ)
    (hq : generateEmbedding embedder query = .ok qvec)
    (hnodup : (pg.rows.map (fun r => r.id)).Nodup)
    (hpos : ∀ r ∈ pg.rows, 0 ≤ pg.tsRank query r) :
    (∃ res, hybridSearch pg embedder query limit 1 0 = .ok res ∧
      (res.take (pg.rows.filter (pg.tsMatch query)).length).map resData =
        (fullTextSearch pg query limit).map resData ∧
      ∀ r ∈ res.drop (pg.rows.filter (pg.tsMatch query)).length,
        r.score = 0) ∧
    ((∀ r ∈ pg.rows, pg.tsMatch query r → r.embedding.isSome) →
      (pg.rows.filter (fun r => r.embedding.isSome)).Pairwise
        (fun a b => semScoreOf pg qvec a ≠ semScoreOf pg qvec b) →
      ∃ res res2, hybridSearch pg embedder query limit 0 1 = .ok res ∧
        semanticSearch pg embedder query limit = .ok res2 ∧
        res.map resData = res2.map resData) ∧
    controllerWeight (some 0) = 1 / 2 :=
  ⟨hybrid_lexical_head pg embedder query limit qvec hq hpos,
    fun hsub hdist =>
      hybrid_semantic_equal pg embedder query limit qvec hq hnodup
        hsub hdist,
    rfl⟩

set_option maxRecDepth 10000 in
/-- Witness for the amended C4 at `pgC3`: with weights `(1, 0)` the
single lexical row heads the hybrid list exactly as in lexical-only
search. -/
theorem hybrid_weight_degeneration_witness :
    ∃ res, hybridSearch pgC3 (some constEmbedder) ['q'] 10 1 0 =
        .ok res ∧
      (res.take 1).map resData =
        (fullTextSearch pgC3 ['q'] 10).map resData := by
  have h := hybrid_weight_degeneration pgC3 (some constEmbedder) ['q'] 10
    (List.replicate embeddingDimension 0) rfl (by decide) (by decide)
  obtain ⟨res, h1, h2, h3⟩ := h.1
  exact ⟨res, h1, h2⟩

end Trab
